import Mathlib

/-!
# goone: N+1 query detector

A shallow embedding of `go_one.go`: the two memo stores, the registry of query
types, the tree walk of `ast.Inspect`, `findQuery`, `anotherFileSearch` and
`run`, followed by theorems about them.

The syntax tree, the resolved types and the resolved declaration objects are
inputs produced by the Go front end; they are modelled as data carried by the
tree (`Node`, `Ident`) and by the package under analysis (`Pass`).
-/

namespace GoOne

/-- Source positions (`token.Pos`, an integer; `0` is `token.NoPos`). -/
abbrev Pos := Nat

/-- Type identities: a `types.Type` up to `types.Identical`. -/
abbrev Ty := Nat

/-- Go maps `map[token.Pos]bool`: absent keys are `none`. -/
abbrev Memo := Pos → Option Bool

/-- The map `make(map[token.Pos]bool)`. -/
def Memo.empty : Memo := fun _ => none

/-- Map assignment `m[key] = value`. -/
def Memo.set (m : Memo) (key : Pos) (value : Bool) : Memo :=
  fun k => if k = key then some value else m k

/-- Map read `m[key]`, the zero value `false` when the key is absent. -/
def Memo.get (m : Memo) (key : Pos) : Bool := (m key).getD false

/-- The comma-ok read `_, exist := m[key]`. -/
def Memo.Exists (m : Memo) (key : Pos) : Bool := (m key).isSome

/-- What the code reads of `ident.Obj`: nil, an object whose `Decl` is a
`*ast.FuncDecl` (named by the position of that declaration), or an object with
any other kind of declaration. -/
inductive ObjRef where
  | nil
  | funcDecl (declPos : Pos)
  | other
  deriving DecidableEq, Repr

/-- An `*ast.Ident` with what the front end resolved for it. -/
structure Ident where
  /-- The position `ident.Pos()`. -/
  pos : Pos
  /-- The entry `pass.TypesInfo.Types[ident]`, when there is one. -/
  typ : Option Ty
  /-- The field `ident.Obj`. -/
  obj : ObjRef
  /-- The position of `pass.TypesInfo.ObjectOf(ident)`, when it is not nil. -/
  objectOf : Option Pos
  deriving DecidableEq, Repr

/-- The node kinds the analyzer filters on. -/
inductive Kind where
  | forStmt
  | rangeStmt
  | funcDecl
  | other
  deriving DecidableEq, Repr

/-- Syntax trees as `ast.Inspect` sees them: identifiers, call expressions
(children: `Fun`, then `Args`) and every other node with its children in
source order. -/
inductive Node where
  | ident (id : Ident)
  | call (fn : Node) (args : List Node)
  | node (kind : Kind) (pos : Pos) (children : List Node)
  deriving Repr

/-- The method `Pos()`: a call expression starts where its `Fun` starts. -/
def Node.pos : Node → Pos
  | .ident id => id.pos
  | .call fn _ => fn.pos
  | .node _ p _ => p

/-- An `*ast.File` of the pass, with its extent `[Pos(), End()]`. -/
structure File where
  pos : Pos
  fin : Pos
  decls : List Node

/-- The parts of `*analysis.Pass` the code reads. -/
structure Pass where
  /-- The field `pass.Files`. -/
  files : List File
  /-- The probe `analysisutil.TypeOf(pass, pkg, name)`. -/
  typeOf : String → String → Option Ty

/-- The process-wide variables plus what a run emits. `walks` and `calls` are
instrumentation: the roots handed to `ast.Inspect`, and the (root, report
target) pairs `findQuery` was entered with, both in order of occurrence. -/
@[ext]
structure State where
  searchCache : Memo
  funcCache : Memo
  sqlTypes : List Ty
  reports : List Pos
  walks : List Pos
  calls : List (Pos × Option Pos)

/-- What stops the Go program instead of a normal return. -/
inductive Fault where
  | outOfFuel
  | nilDeref
  deriving DecidableEq, Repr

/-- The call `pass.Reportf(pos, "this query is called in a loop")`. -/
def State.report (st : State) (p : Pos) : State :=
  { st with reports := st.reports ++ [p] }

mutual
/-- The traversal `ast.Inspect(n, f)`: call `f n`; when it answers true, walk
the children in order. (The closing call `f(nil)` matches no case of the
visitor.) -/
def inspect (f : Node → State → Except Fault (Bool × State)) :
    Node → State → Except Fault State
  | .ident id, st =>
    match f (.ident id) st with
    | .error e => .error e
    | .ok (_, st1) => .ok st1
  | .call fn args, st =>
    match f (.call fn args) st with
    | .error e => .error e
    | .ok (false, st1) => .ok st1
    | .ok (true, st1) =>
      match inspect f fn st1 with
      | .error e => .error e
      | .ok st2 => inspectList f args st2
  | .node k p cs, st =>
    match f (.node k p cs) st with
    | .error e => .error e
    | .ok (false, st1) => .ok st1
    | .ok (true, st1) => inspectList f cs st1
/-- The walk of a list of sibling nodes, left to right. -/
def inspectList (f : Node → State → Except Fault (Bool × State)) :
    List Node → State → Except Fault State
  | [], st => .ok st
  | n :: ns, st =>
    match inspect f n st with
    | .error e => .error e
    | .ok st1 => inspectList f ns st1
end

/-- Run `f` over a list of nodes, left to right, threading the state. -/
def forEach (f : Node → State → Except Fault State) :
    List Node → State → Except Fault State
  | [], st => .ok st
  | n :: ns, st =>
    match f n st with
    | .error e => .error e
    | .ok st1 => forEach f ns st1

mutual
/-- The nodes whose kind satisfies `want`, below a node and in preorder: what
an `inspector.Inspector` hands to a callback filtered on node types. -/
def collect (want : Kind → Bool) : Node → List Node
  | .ident _ => []
  | .call fn args => collect want fn ++ collectList want args
  | .node k p cs =>
    if want k then .node k p cs :: collectList want cs else collectList want cs
/-- The same over a list of siblings. -/
def collectList (want : Kind → Bool) : List Node → List Node
  | [] => []
  | n :: ns => collect want n ++ collectList want ns
end

/-- The function declarations of one file, in source order. -/
def funcDeclsOf (file : File) : List Node :=
  collectList (fun k => decide (k = Kind.funcDecl)) file.decls

/-- Every function declaration of the package. -/
def allFuncDecls (P : Pass) : List Node := P.files.flatMap funcDeclsOf

/-- The lookup `analysisutil.File(pass, pos)`: the first file of the pass
whose extent contains `pos`. -/
def fileOf (P : Pass) (p : Pos) : Option File :=
  P.files.find? (fun f => decide (f.pos ≤ p) && decide (p ≤ f.fin))

/-- The declaration `obj.Decl.(*ast.FuncDecl)` an identifier points to, found
by its position. -/
def declAt (P : Pass) (declPos : Pos) : Option Node :=
  (allFuncDecls P).find? (fun d => decide (d.pos = declPos))

/-- The test `types.Identical`. -/
def identical (a b : Ty) : Bool := decide (a = b)

/-- The function `anotherFileSearch`; `recur` is `findQuery`. -/
def anotherFileSearch (P : Pass)
    (recur : Node → Option Node → State → Except Fault State)
    (funcExpr : Ident) (parentNode : Node) (st : State) :
    Except Fault (Bool × State) :=
  match funcExpr.objectOf with
  | some anotherFileNode =>
    match fileOf P anotherFileNode with
    | none => .ok (false, st)
    | some file =>
      match forEach (fun n s => recur n (some parentNode) s) (funcDeclsOf file) st with
      | .error e => .error e
      | .ok st1 => .ok (false, st1)
  | none => .ok (false, st)

/-- The closure passed to `ast.Inspect` in `findQuery` (lines 164-207);
`recur` is `findQuery`. -/
def visit (P : Pass) (recur : Node → Option Node → State → Except Fault State)
    (rootNode : Node) (parentNode : Option Node) (n : Node) (st : State) :
    Except Fault (Bool × State) :=
  match n with
  | .ident node =>
    match node.typ with
    | some tv =>
      let reportNode := parentNode.getD n
      if st.sqlTypes.any (fun typ => identical tv typ) then
        .ok (false, { st.report reportNode.pos with
                      funcCache := st.funcCache.set rootNode.pos true })
      else .ok (true, st)
    | none => .ok (true, st)
  | .call (.ident funcExpr) _ =>
    match funcExpr.obj with
    | .nil => anotherFileSearch P recur funcExpr n st
    | .funcDecl declPos =>
      match declAt P declPos with
      | none => .ok (true, st)
      | some decl =>
        if st.searchCache.get decl.pos = false then
          match recur decl (some n)
              { st with searchCache := st.searchCache.set decl.pos true } with
          | .error e => .error e
          | .ok st1 => .ok (true, st1)
        else if st.funcCache.get decl.pos then .ok (true, st.report n.pos)
        else .ok (true, st)
    | .other => .ok (true, st)
  | _ => .ok (true, st)

/-- The function `findQuery`. The first argument bounds the nesting depth of
its recursion. -/
def findQuery (P : Pass) : Nat → Node → Option Node → State → Except Fault State
  | 0, _, _, _ => .error .outOfFuel
  | fuel + 1, rootNode, parentNode, st0 =>
    let st := { st0 with calls := st0.calls ++ [(rootNode.pos, parentNode.map Node.pos)] }
    if st.funcCache.Exists rootNode.pos then
      if st.funcCache.get rootNode.pos then
        match parentNode with
        | none => .error .nilDeref
        | some p => .ok (st.report p.pos)
      else .ok st
    else
      inspect (visit P (findQuery P fuel) rootNode parentNode) rootNode
        { st with walks := st.walks ++ [rootNode.pos] }

/-- The function `appendTypes`. -/
def appendTypes (P : Pass) (pkg name : String) (st : State) : State :=
  match P.typeOf pkg name with
  | some typ => { st with sqlTypes := st.sqlTypes ++ [typ] }
  | none => st

/-- The function `prepareTypes`. -/
def prepareTypes (P : Pass) (st : State) : State :=
  appendTypes P "github.com/jmoiron/sqlx" "*DB" <|
  appendTypes P "github.com/go-gorp/gorp/v3" "*DbMap" <|
  appendTypes P "gopkg.in/gorp.v2" "*DbMap" <|
  appendTypes P "gopkg.in/gorp.v1" "*DbMap" <|
  appendTypes P "gorm.io/gorm" "*DB" <|
  appendTypes P "database/sql" "*DB" st

/-- The filter `forFilter` of `run`. -/
def forFilter (k : Kind) : Bool :=
  decide (k = Kind.forStmt) || decide (k = Kind.rangeStmt)

/-- The for/range statements `inspect.Preorder` hands to the callback of
`run`: every file of the pass in turn, each in preorder. -/
def loops (P : Pass) : List Node :=
  P.files.flatMap (fun f => collectList forFilter f.decls)

/-- The state a run starts from: fresh memo stores (lines 108-109), nothing
reported, and the registry as the process holds it. -/
def State.fresh (sqlTypes : List Ty) : State :=
  { searchCache := Memo.empty, funcCache := Memo.empty, sqlTypes := sqlTypes,
    reports := [], walks := [], calls := [] }

/-- The function `run`, entered with the process-wide variables as `g` holds
them. -/
def run (P : Pass) (fuel : Nat) (g : State) : Except Fault State :=
  let st := prepareTypes P (State.fresh g.sqlTypes)
  if st.sqlTypes.isEmpty then .ok st
  else forEach (fun n s => findQuery P fuel n none s) (loops P) st

/-- The visitor of `findQuery` with its boolean answer dropped. -/
def visitSt (P : Pass) (recur : Node → Option Node → State → Except Fault State)
    (rootNode : Node) (parentNode : Option Node) (n : Node) (st : State) :
    Except Fault State :=
  match visit P recur rootNode parentNode n st with
  | .error e => .error e
  | .ok (_, st1) => .ok st1

/-- Where the visitor answers false on a node that has children: a call whose
callee is a simple name without declaration object (line 187, since
`anotherFileSearch` returns false on every path). -/
def prunes : Node → Bool
  | .call (.ident funcExpr) _ => decide (funcExpr.obj = ObjRef.nil)
  | _ => false

mutual
/-- The nodes the walk of `findQuery` visits below a node, in order. -/
def walked : Node → List Node
  | .ident id => [.ident id]
  | .call fn args =>
    if prunes (.call fn args) then [.call fn args]
    else .call fn args :: (walked fn ++ walkedList args)
  | .node k p cs => .node k p cs :: walkedList cs
/-- The same over a list of siblings. -/
def walkedList : List Node → List Node
  | [] => []
  | n :: ns => walked n ++ walkedList ns
end

/-- An identifier whose recorded type is identical to a registered type. -/
def isQueryIdent (sqlTypes : List Ty) : Node → Bool
  | .ident node =>
    match node.typ with
    | some tv => sqlTypes.any (fun typ => identical tv typ)
    | none => false
  | _ => false

/-- A call the call rule expands or reports on: the callee is a simple name
that either points to a function declaration of the package, or has no
declaration object and a defining file among the files of the pass. -/
def isLiveCall (P : Pass) : Node → Bool
  | .call (.ident funcExpr) _ =>
    match funcExpr.obj with
    | .nil => (funcExpr.objectOf.bind (fileOf P)).isSome
    | .funcDecl declPos => (declAt P declPos).isSome
    | .other => false
  | _ => false

/-- The nodes at which the visitor can do anything. -/
def acts (P : Pass) (sqlTypes : List Ty) (n : Node) : Bool :=
  isQueryIdent sqlTypes n || isLiveCall P n

/-- The visited nodes at which the visitor can do anything. -/
def active (P : Pass) (sqlTypes : List Ty) (root : Node) : List Node :=
  (walked root).filter (acts P sqlTypes)

/-- The roots `findQuery` can be entered with during a run over `P`: the
for/range statements and the function declarations of the package. -/
def IsRoot (P : Pass) (n : Node) : Prop := n ∈ loops P ∨ n ∈ allFuncDecls P

/-- Distinct roots start at distinct positions (as in any `token.FileSet`). -/
def DistinctPos (P : Pass) : Prop :=
  ∀ a b, IsRoot P a → IsRoot P b → a.pos = b.pos → a = b

/-- The states a run can be in between two top-level calls of `findQuery`:
the fresh state, and any state left by analysing one more for/range statement
of the package. -/
inductive Reachable (P : Pass) : State → Prop where
  | fresh (sqlTypes : List Ty) : Reachable P (State.fresh sqlTypes)
  | step {st st1 : State} {fuel : Nat} {loop : Node} :
      Reachable P st → loop ∈ loops P → findQuery P fuel loop none st = .ok st1 →
      Reachable P st1

/-- The walk of `a` meets a call by simple name of `b`, a function declared in
the file. -/
def CallsInFile (P : Pass) (a b : Node) : Prop :=
  ∃ (funcExpr : Ident) (args : List Node) (declPos : Pos),
    Node.call (.ident funcExpr) args ∈ walked a ∧
    funcExpr.obj = ObjRef.funcDecl declPos ∧ declAt P declPos = some b

/-- The declaration a call by simple name points to, if it does. -/
def calleeOf (P : Pass) : Node → Option Node
  | .call (.ident funcExpr) _ =>
    match funcExpr.obj with
    | .funcDecl declPos => declAt P declPos
    | _ => none
  | _ => none

/-- The declarations called by simple name in the walk of a root, in order. -/
def calleesOf (P : Pass) (root : Node) : List Node :=
  (walked root).filterMap (calleeOf P)

/-- Every true verdict belongs to a root whose walk meets an identifier of
registered type. -/
def VerdictsSound (P : Pass) (st : State) : Prop :=
  ∀ k, st.funcCache.get k = true →
    ∃ r, IsRoot P r ∧ r.pos = k ∧ ∃ m, m ∈ walked r ∧ isQueryIdent st.sqlTypes m = true

/-- The number of function declarations whose expansion has not begun. -/
def pending (P : Pass) (st : State) : Nat :=
  (((allFuncDecls P).map Node.pos).filter (fun k => !st.searchCache.get k)).length

/-- A set of roots none of which can lead to a report: their walks meet no
identifier of registered type, every call without in-file declaration object
they meet is a dead end, and the set is closed under calls by simple name. -/
structure Quiet (P : Pass) (S : List Ty) (C : Node → Prop) : Prop where
  noHit : ∀ d, C d → ∀ m, m ∈ walked d → isQueryIdent S m = false
  deadEnd : ∀ d, C d → ∀ m, m ∈ walked d → prunes m = true → isLiveCall P m = false
  closed : ∀ d, C d → ∀ e, CallsInFile P d e → C e

/-- A relation between states that every elementary step of `findQuery`
respects, for roots satisfying `Rt`. -/
structure StepClosed (P : Pass) (Rt : Node → Prop) (R : State → State → Prop) : Prop where
  decls : ∀ d, d ∈ allFuncDecls P → Rt d
  refl : ∀ st, R st st
  trans : ∀ a b c, R a b → R b c → R a c
  enter : ∀ st (root p : Node), Rt root →
    R st { st with calls := st.calls ++ [(root.pos, some p.pos)] }
  walk : ∀ st (root : Node), Rt root → st.funcCache.Exists root.pos = false →
    R st { st with walks := st.walks ++ [root.pos] }
  cached : ∀ st (root p : Node), Rt root → st.funcCache.get root.pos = true →
    R st (st.report p.pos)
  hit : ∀ st (root m : Node) (p : Pos), Rt root → m ∈ walked root →
    isQueryIdent st.sqlTypes m = true →
    R st { st.report p with funcCache := st.funcCache.set root.pos true }
  start : ∀ st (decl : Node), decl ∈ allFuncDecls P →
    st.searchCache.get decl.pos = false →
    R st { st with searchCache := st.searchCache.set decl.pos true }
  again : ∀ st (decl c : Node), decl ∈ allFuncDecls P →
    st.searchCache.get decl.pos = true → st.funcCache.get decl.pos = true →
    R st (st.report c.pos)

/-- A step that reports nothing, records no verdict, keeps the registry and
forgets no begun expansion. -/
def Silent (st st1 : State) : Prop :=
  st1.reports = st.reports ∧ st1.funcCache = st.funcCache ∧
  st1.sqlTypes = st.sqlTypes ∧
  ∀ k, st.searchCache.get k = true → st1.searchCache.get k = true

/-- The reports of a run that returned. -/
def reportsOf (r : Except Fault State) : Option (List Pos) :=
  match r with
  | .ok st => some st.reports
  | .error _ => none

/-- The roots walked by a run that returned. -/
def walksOf (r : Except Fault State) : Option (List Pos) :=
  match r with
  | .ok st => some st.walks
  | .error _ => none

/-- The probe of a package that imports `database/sql` and none of the other
five libraries; `*sql.DB` is type `1`. -/
def sqlOnly (pkg name : String) : Option Ty :=
  if pkg = "database/sql" ∧ name = "*DB" then some 1 else none

/-! ## Sample packages

Each models a small Go package; `*sql.DB` is type `1`, and `db` is a
package-level `var db *sql.DB`. -/

/-- The loop of
```go
func list(xs []int) {
	for _, x := range xs {
		db.Query("q", x)
	}
}
```
with the range statement at 90 and `db` at 120. -/
def directLoop : Node :=
  .node .rangeStmt 90
    [ .ident ⟨94, none, .nil, none⟩,
      .ident ⟨97, none, .other, some 97⟩,
      .ident ⟨108, some 10, .other, some 64⟩,
      .node .other 112
        [ .node .other 120
            [ .call
                (.node .other 120
                  [ .ident ⟨120, some 1, .other, some 40⟩,
                    .ident ⟨123, none, .nil, some 0⟩ ])
                [ .node .other 129 [],
                  .ident ⟨134, some 11, .other, some 97⟩ ] ] ] ]

/-- The package holding `directLoop`: one file spanning 1..200. -/
def directPass : Pass :=
  { files := [⟨1, 200, [.node .funcDecl 60 [.ident ⟨65, none, .other, some 65⟩, directLoop]]⟩],
    typeOf := sqlOnly }

/-- The loop of
```go
func walkAll(xs []int) {
	for _, x := range xs {
		fetch(x)
	}
}
```
with the range statement at 90 and the call `fetch(x)` at 120; `fetch` is the
function declared at 150 in the same file. -/
def chainLoop : Node :=
  .node .rangeStmt 90
    [ .ident ⟨94, none, .nil, none⟩,
      .ident ⟨97, none, .other, some 97⟩,
      .ident ⟨108, some 10, .other, some 72⟩,
      .node .other 112
        [ .node .other 120
            [ .call (.ident ⟨120, some 20, .funcDecl 150, some 155⟩)
                [ .ident ⟨126, some 11, .other, some 97⟩ ] ] ] ]

/-- The declaration `func walkAll(xs []int)` around `chainLoop`, at 60. -/
def walkAllDecl : Node :=
  .node .funcDecl 60 [.ident ⟨65, none, .other, some 65⟩, chainLoop]

/-- The declaration
```go
func fetch(n int) {
	db.Query("q", n)
}
```
at 150, with `db` at 180. -/
def fetchOne : Node :=
  .node .funcDecl 150
    [ .ident ⟨155, none, .other, some 155⟩,
      .ident ⟨161, none, .other, some 161⟩,
      .ident ⟨163, some 11, .nil, some 0⟩,
      .node .other 170
        [ .node .other 180
            [ .call
                (.node .other 180
                  [ .ident ⟨180, some 1, .other, some 40⟩,
                    .ident ⟨183, none, .nil, some 0⟩ ])
                [ .node .other 189 [],
                  .ident ⟨194, some 11, .other, some 161⟩ ] ] ] ]

/-- The declaration
```go
func fetch(n int) {
	db.Query("q", n)
	fetch(n - 1)
}
```
at 150, with `db` at 180 and the inner call `fetch(n - 1)` at 200. -/
def fetchRec : Node :=
  .node .funcDecl 150
    [ .ident ⟨155, none, .other, some 155⟩,
      .ident ⟨161, none, .other, some 161⟩,
      .ident ⟨163, some 11, .nil, some 0⟩,
      .node .other 170
        [ .node .other 180
            [ .call
                (.node .other 180
                  [ .ident ⟨180, some 1, .other, some 40⟩,
                    .ident ⟨183, none, .nil, some 0⟩ ])
                [ .node .other 189 [],
                  .ident ⟨194, some 11, .other, some 161⟩ ] ],
          .node .other 200
            [ .call (.ident ⟨200, some 20, .funcDecl 150, some 155⟩)
                [ .node .other 206
                    [ .ident ⟨206, some 11, .other, some 161⟩,
                      .node .other 210 [] ] ] ] ] ]

/-- One file with `walkAll` and the plain `fetch`. -/
def plainPass : Pass :=
  { files := [⟨1, 300, [walkAllDecl, fetchOne]⟩], typeOf := sqlOnly }

/-- One file with `walkAll` and the self-recursive `fetch`. -/
def recPass : Pass :=
  { files := [⟨1, 300, [walkAllDecl, fetchRec]⟩], typeOf := sqlOnly }

/-- A range statement `for _, x := range xs { <stmt> }` at `p`, whose key,
value and operand sit at `p+4`, `p+7`, `p+18` and whose block starts at
`p+22`. -/
def rangeLoop (p : Pos) (stmt : Node) : Node :=
  .node .rangeStmt p
    [ .ident ⟨p + 4, none, .nil, none⟩,
      .ident ⟨p + 7, none, .other, some (p + 7)⟩,
      .ident ⟨p + 18, some 10, .other, some (p - 18)⟩,
      .node .other (p + 22) [stmt] ]

/-- An expression statement `f(x)` at `p` calling by simple name the function
declared in the same file at `declPos`, with argument `x` at `p+6`. -/
def callStmt (p declPos : Pos) : Node :=
  .node .other p
    [ .call (.ident ⟨p, some 20, .funcDecl declPos, some (declPos + 5)⟩)
        [ .ident ⟨p + 6, some 11, .other, some 97⟩ ] ]

/-- An expression statement `f(x)` at `p` whose callee has no declaration
object in this file; its type-info object sits at `objPos`. -/
def foreignCallStmt (p objPos : Pos) : Node :=
  .node .other p
    [ .call (.ident ⟨p, some 20, .nil, some objPos⟩)
        [ .ident ⟨p + 6, some 11, .other, some 97⟩ ] ]

/-- An expression statement `db.Exec("q", n)` at `p`: a method call on the
package-level `db`, of type `*sql.DB`. -/
def queryStmt (p : Pos) : Node :=
  .node .other p
    [ .call
        (.node .other p
          [ .ident ⟨p, some 1, .other, some 40⟩,
            .ident ⟨p + 3, none, .nil, some 0⟩ ])
        [ .node .other (p + 9) [],
          .ident ⟨p + 14, some 11, .other, some 161⟩ ] ]

/-- A declaration `func name(n int) { <stmts> }` at `p`. -/
def funcDecl (p : Pos) (stmts : List Node) : Node :=
  .node .funcDecl p
    [ .ident ⟨p + 5, none, .other, some (p + 5)⟩,
      .ident ⟨p + 11, none, .other, some (p + 11)⟩,
      .ident ⟨p + 13, some 11, .nil, some 0⟩,
      .node .other (p + 20) stmts ]

/-- The package
```go
func a(xs []int) { for _, x := range xs { load(x) } }   // loop 90, call 120
func b(ys []int) { for _, y := range ys { load(y) } }   // loop 190, call 220
func load(n int)  { fetch(n) }                          // decl 250, call 280
func fetch(n int) { db.Query("q", n) }                  // decl 300, db 330
```
in one file. -/
def chainPass : Pass :=
  { files := [⟨1, 400,
      [ funcDecl 60 [rangeLoop 90 (callStmt 120 250)],
        funcDecl 160 [rangeLoop 190 (callStmt 220 250)],
        funcDecl 250 [callStmt 280 300],
        funcDecl 300 [queryStmt 330] ]⟩],
    typeOf := sqlOnly }

/-- An assignment `ids = append(ids, fetch(x))` at `p`: the call of `fetch`
(declared in the same file at `declPos`) sits at `p+18`, among the arguments
of the built-in `append`, whose identifier has no declaration object and whose
type-info object has no position. -/
def appendStmt (p declPos : Pos) : Node :=
  .node .other p
    [ .ident ⟨p, some 12, .other, some 70⟩,
      .call (.ident ⟨p + 6, some 21, .nil, some 0⟩)
        [ .ident ⟨p + 13, some 12, .other, some 70⟩,
          .call (.ident ⟨p + 18, some 20, .funcDecl declPos, some (declPos + 5)⟩)
            [ .ident ⟨p + 24, some 11, .other, some 97⟩ ] ] ]

/-- The package
```go
func a(xs []int) (ids []int) {
	for _, x := range xs { ids = append(ids, fetch(x)) }   // loop 90, fetch(x) at 138
	return
}
func b(ys []int) (ids []int) {
	for _, y := range ys { ids = append(ids, fetch(y)) }   // loop 190, fetch(y) at 238
	return
}
func fetch(n int) int { db.Query("q", n); return n }       // decl 300, db 330
```
in one file. -/
def appendPass : Pass :=
  { files := [⟨1, 400,
      [ funcDecl 60 [rangeLoop 90 (appendStmt 120 300)],
        funcDecl 160 [rangeLoop 190 (appendStmt 220 300)],
        funcDecl 300 [queryStmt 330] ]⟩],
    typeOf := sqlOnly }

/-- The package of two files
```go
// a.go, positions 1..200
func a(xs []int) { for _, x := range xs { note(x); note(x) } }  // loop 90, calls 120, 140
// b.go, positions 201..400
func note(n int) { }                                            // decl 300
```
-/
def notePass : Pass :=
  { files :=
      [ ⟨1, 200, [funcDecl 60
          [.node .rangeStmt 90
            [ .ident ⟨94, none, .nil, none⟩,
              .ident ⟨97, none, .other, some 97⟩,
              .ident ⟨108, some 10, .other, some 72⟩,
              .node .other 112 [foreignCallStmt 120 305, foreignCallStmt 140 305] ]]]⟩,
        ⟨201, 400, [funcDecl 300 []]⟩ ],
    typeOf := sqlOnly }

/-- The loop of `ping` in `pingPass`. -/
def pingLoop : Node := rangeLoop 90 (foreignCallStmt 120 305)

/-- The declaration `func ping(xs []int)` of `pingPass`. -/
def pingDecl : Node := funcDecl 60 [pingLoop]

/-- The declaration `func pong(n int)` of `pingPass`. -/
def pongDecl : Node := funcDecl 300 [foreignCallStmt 330 65]

/-- The package of two files
```go
// a.go, positions 1..200
func ping(xs []int) { for _, x := range xs { pong(x) } }   // decl 60, loop 90, call 120
// b.go, positions 201..400
func pong(n int) { ping(nil) }                             // decl 300, call 330
```
Neither function touches a query type. -/
def pingPass : Pass :=
  { files := [⟨1, 200, [pingDecl]⟩, ⟨201, 400, [pongDecl]⟩], typeOf := sqlOnly }

/-- The package of two files
```go
// a.go, positions 1..200
func a(xs []int) { for _, x := range xs { fetch(x) } }     // loop 90, call 120
// b.go, positions 201..500
func fetch(n int) { db.Query("q", n) }                     // decl 300, db 330
func purge(n int) { db.Exec("q", n) }                      // decl 400, db 430
```
-/
def purgePass : Pass :=
  { files :=
      [ ⟨1, 200, [funcDecl 60 [rangeLoop 90 (foreignCallStmt 120 305)]]⟩,
        ⟨201, 500, [funcDecl 300 [queryStmt 330], funcDecl 400 [queryStmt 430]]⟩ ],
    typeOf := sqlOnly }

/-- The loop of `a` in `chainPass`. -/
def chainLoopA : Node := rangeLoop 90 (callStmt 120 250)

/-- The loop of `b` in `chainPass`. -/
def chainLoopB : Node := rangeLoop 190 (callStmt 220 250)

/-- The loop of `purgePass`. -/
def purgeLoop : Node := rangeLoop 90 (foreignCallStmt 120 305)

/-- The probe of a package that imports none of the six libraries. -/
def bareProbe (_pkg _name : String) : Option Ty := none

/-- The package
```go
func a(xs []int) { for _, x := range xs { fetch(x) } }   // loop 90, call 120
func b(ys []int) { for _, y := range ys { fetch(y) } }   // loop 190, call 220
func fetch(n int) { db.Query("q", n) }                   // decl 300, db 330
```
in one file: `appendPass` with the calls of `fetch` as plain statements. -/
def memoPass : Pass :=
  { files := [⟨1, 400,
      [ funcDecl 60 [rangeLoop 90 (callStmt 120 300)],
        funcDecl 160 [rangeLoop 190 (callStmt 220 300)],
        funcDecl 300 [queryStmt 330] ]⟩],
    typeOf := sqlOnly }

/-- The loop of `cyclePass`. -/
def cycleLoop : Node := rangeLoop 90 (callStmt 120 250)

/-- The declaration of `even` in `cyclePass`. -/
def evenDecl : Node := funcDecl 250 [callStmt 280 300]

/-- The declaration of `odd` in `cyclePass`. -/
def oddDecl : Node := funcDecl 300 [callStmt 330 250]

/-- The package
```go
func a(xs []int) { for _, x := range xs { even(x) } }   // decl 60, loop 90, call 120
func even(n int) { odd(n) }                             // decl 250, call 280
func odd(n int)  { even(n) }                            // decl 300, call 330
```
in one file: a cyclic call graph that touches no query type. -/
def cyclePass : Pass :=
  { files := [⟨1, 400, [funcDecl 60 [cycleLoop], evenDecl, oddDecl]⟩], typeOf := sqlOnly }

/-- The check, on the visited nodes of a root, that none is an identifier of
registered type and that every call without declaration object is a dead end. -/
def quietRoot (P : Pass) (S : List Ty) (root : Node) : Bool :=
  (walked root).all (fun m => !isQueryIdent S m && (!prunes m || !isLiveCall P m))

/-- The six (library, type name) pairs `prepareTypes` probes, in its order. -/
def probes : List (String × String) :=
  [ ("database/sql", "*DB"),
    ("gorm.io/gorm", "*DB"),
    ("gopkg.in/gorp.v1", "*DbMap"),
    ("gopkg.in/gorp.v2", "*DbMap"),
    ("github.com/go-gorp/gorp/v3", "*DbMap"),
    ("github.com/jmoiron/sqlx", "*DB") ]

/-- The probe of a package that imports `database/sql` (type `1`) and
`github.com/jmoiron/sqlx` (type `6`). -/
def sqlAndSqlx (pkg name : String) : Option Ty :=
  if pkg = "database/sql" ∧ name = "*DB" then some 1
  else if pkg = "github.com/jmoiron/sqlx" ∧ name = "*DB" then some 6
  else none

/-- The loop of `remotePass`. -/
def remoteLoop : Node :=
  rangeLoop 90
    (.node .other 120
      [ .call
          (.node .other 120
            [ .ident ⟨120, some 2, .other, some 75⟩,
              .ident ⟨125, none, .nil, some 0⟩ ])
          [ .ident ⟨131, some 11, .other, some 97⟩ ] ])

/-- The package
```go
func list(xs []int) {               // decl 60
	conn := store.Conn()            // a *gorm.DB (type 2) from package store
	for _, x := range xs {          // loop 90
		conn.First(x)               // conn at 120
	}
}
```
whose only dependency is `example.com/store`: it names none of the six
libraries itself, so that every probe fails. -/
def remotePass : Pass :=
  { files := [⟨1, 200, [funcDecl 60 [remoteLoop]]⟩], typeOf := bareProbe }

/-- The loop of `twicePass`. -/
def twiceLoop : Node := rangeLoop 90 (callStmt 120 300)

/-- The package
```go
func a(xs []int) { for _, x := range xs { sync(x) } }      // loop 90, call 120
func sync(n int) { db.Query("q", n); db.Exec("q", n) }     // decl 300, db at 330 and 360
```
in one file. -/
def twicePass : Pass :=
  { files := [⟨1, 400,
      [ funcDecl 60 [twiceLoop], funcDecl 300 [queryStmt 330, queryStmt 360] ]⟩],
    typeOf := sqlOnly }

/-- The loop of `argPass`: the method call on `db` (at 140) is an argument of
the built-in `append`, whose identifier has no declaration object. -/
def argLoop : Node :=
  rangeLoop 90
    (.node .other 120
      [ .ident ⟨120, some 13, .other, some 70⟩,
        .call (.ident ⟨127, some 21, .nil, some 0⟩)
          [ .ident ⟨134, some 13, .other, some 70⟩,
            .call
              (.node .other 140
                [ .ident ⟨140, some 1, .other, some 40⟩,
                  .ident ⟨143, none, .nil, some 0⟩ ])
              [ .node .other 152 [],
                .ident ⟨157, some 11, .other, some 97⟩ ] ] ])

/-- The package
```go
func a(xs []int) (rows []*sql.Row) {                       // decl 60
	for _, x := range xs {                                 // loop 90
		rows = append(rows, db.QueryRow("q", x))           // append at 127, db at 140
	}
	return
}
```
in one file. -/
def argPass : Pass :=
  { files := [⟨1, 400, [funcDecl 60 [argLoop]]⟩], typeOf := sqlOnly }

mutual
/-- Every node below a node, itself included, in depth-first source order. -/
def subtree : Node → List Node
  | .ident id => [.ident id]
  | .call fn args => .call fn args :: (subtree fn ++ subtreeList args)
  | .node k p cs => .node k p cs :: subtreeList cs
/-- The same over a list of siblings. -/
def subtreeList : List Node → List Node
  | [] => []
  | n :: ns => subtree n ++ subtreeList ns
end

/-- A call expression. -/
def isCall : Node → Bool
  | .call _ _ => true
  | _ => false

/-- The declaration of `sync` in `twicePass`. -/
def syncDecl : Node := funcDecl 300 [queryStmt 330, queryStmt 360]

/-- The call `sync(x)` in the loop of `twicePass`, at 120. -/
def twiceCall : Node :=
  .call (.ident ⟨120, some 20, .funcDecl 300, some 305⟩)
    [ .ident ⟨126, some 11, .other, some 97⟩ ]

/-- The loop of
```go
for _, x := range xs {          // loop 90
	total += db.MaxIdle         // total at 120, db at 129
	last = db                   // last at 140, db at 147
}
```
where `db` and `last` have type `*sql.DB`: no call expression, three
identifiers of registered type. -/
def fieldLoop : Node :=
  .node .rangeStmt 90
    [ .ident ⟨94, none, .nil, none⟩,
      .ident ⟨97, none, .other, some 97⟩,
      .ident ⟨108, some 10, .other, some 72⟩,
      .node .other 112
        [ .node .other 120
            [ .ident ⟨120, some 11, .other, some 50⟩,
              .node .other 129
                [ .ident ⟨129, some 1, .other, some 40⟩,
                  .ident ⟨132, none, .nil, none⟩ ] ],
          .node .other 140
            [ .ident ⟨140, some 1, .other, some 55⟩,
              .ident ⟨147, some 1, .other, some 40⟩ ] ] ]

/-- Every entry of the map holds `true`. -/
def OnlyTrue (m : Memo) : Prop := ∀ k v, m k = some v → v = true

/-- The states a run passes through: the fresh state; the state with which a
walk begins; the state handed to the callee once the call rule has set the
visited guard; the state after any step of the visitor; and the state any
call of `findQuery` returns. -/
inductive During (P : Pass) : State → Prop where
  | fresh (sqlTypes : List Ty) : During P (State.fresh sqlTypes)
  | enter {st : State} (root : Node) (parent : Option Node) : During P st →
      During P { st with calls := st.calls ++ [(root.pos, parent.map Node.pos)],
                         walks := st.walks ++ [root.pos] }
  | start {st : State} (decl : Node) : During P st →
      During P { st with searchCache := st.searchCache.set decl.pos true }
  | visit {st st1 : State} {fuel : Nat} {root m : Node} {parent : Option Node} :
      During P st → m ∈ walked root →
      visitSt P (findQuery P fuel) root parent m st = .ok st1 → During P st1
  | find {st st1 : State} {fuel : Nat} {root : Node} {parent : Option Node} :
      During P st → findQuery P fuel root parent st = .ok st1 → During P st1

/-- The for/range statements and the function declarations of the package
start at pairwise distinct positions. -/
def PosNodup (P : Pass) : Prop :=
  ((loops P ++ allFuncDecls P).map Node.pos).Nodup

/-- The loop of `cycleHitPass`. -/
def cycleHitLoop : Node := rangeLoop 90 (callStmt 120 250)

/-- The package
```go
func a(xs []int) { for _, x := range xs { even(x) } }   // decl 60, loop 90, call 120
func even(n int) { db.Query("q", n); odd(n) }           // decl 250, db 280, call 310
func odd(n int)  { even(n) }                            // decl 350, call 380
```
in one file: `even` is re-entered through `odd` after its query was met. -/
def cycleHitPass : Pass :=
  { files := [⟨1, 500,
      [ funcDecl 60 [cycleHitLoop],
        funcDecl 250 [queryStmt 280, callStmt 310 350],
        funcDecl 350 [callStmt 380 250] ]⟩],
    typeOf := sqlOnly }

/-- The nested calls of `findQuery` a run made, as (root, report target). -/
def callsOf (r : Except Fault State) : Option (List (Pos × Option Pos)) :=
  match r with
  | .ok st => some st.calls
  | .error _ => none

/-- The loop of
```go
for _, x := range xs {                  // loop 90
	db.Query("q", x)                    // db at 120
	for _, y := range ys {              // loop 150
		db.Exec("q", y)                 // db at 180
	}
}
```
-/
def outerLoop : Node :=
  .node .rangeStmt 90
    [ .ident ⟨94, none, .nil, none⟩,
      .ident ⟨97, none, .other, some 97⟩,
      .ident ⟨108, some 10, .other, some 72⟩,
      .node .other 112 [queryStmt 120, rangeLoop 150 (queryStmt 180)] ]

/-- One file holding a function around `outerLoop`. -/
def nestedPass : Pass :=
  { files := [⟨1, 400, [funcDecl 60 [outerLoop]]⟩], typeOf := sqlOnly }


/-- The block of the loop of `headerPass`: `{ note(i) }`, with the call at 140. -/
def headerBody : Node :=
  .node .other 128
    [ .node .other 140
        [ .call (.ident ⟨140, some 20, .funcDecl 250, some 255⟩)
            [ .ident ⟨145, some 11, .other, some 94⟩ ] ] ]

/-- The loop of `headerPass`, at 90: the initialisation `i := 0` (94), the
condition `i < db.Stats().InUse` (102, with `db` at 106), the post statement
`i++` (124) and the block `headerBody` (128). -/
def headerLoop : Node :=
  .node .forStmt 90
    [ .node .other 94
        [ .ident ⟨94, some 11, .other, some 94⟩,
          .node .other 99 [] ],
      .node .other 102
        [ .ident ⟨102, some 11, .other, some 94⟩,
          .node .other 106
            [ .call
                (.node .other 106
                  [ .ident ⟨106, some 1, .other, some 40⟩,
                    .ident ⟨109, none, .nil, some 0⟩ ])
                [],
              .ident ⟨117, some 11, .nil, some 0⟩ ] ],
      .node .other 124 [ .ident ⟨124, some 11, .other, some 94⟩ ],
      headerBody ]

/-- The package
```go
func scan() {                                       // decl 60
	for i := 0; i < db.Stats().InUse; i++ {         // loop 90, db at 106
		note(i)                                     // call 140
	}
}
func note(n int) { }                                // decl 250
```
in one file: `db` occurs in the header of the loop only. -/
def headerPass : Pass :=
  { files := [⟨1, 400,
      [ .node .funcDecl 60 [.ident ⟨65, none, .other, some 65⟩, headerLoop],
        funcDecl 250 [] ]⟩],
    typeOf := sqlOnly }

/-- The first loop of `rtPass`. -/
def rtLoop : Node := rangeLoop 90 (foreignCallStmt 120 405)

/-- The declaration `func ping(xs []int)` of `rtPass`. -/
def rtPing : Node := funcDecl 60 [rtLoop]

/-- The second loop of `rtPass`. -/
def rtListLoop : Node := rangeLoop 190 (queryStmt 220)

/-- The declaration `func list(ys []int)` of `rtPass`. -/
def rtList : Node := funcDecl 160 [rtListLoop]

/-- The declaration `func pong(n int)` of `rtPass`. -/
def rtPong : Node := funcDecl 400 [foreignCallStmt 430 65]

/-- The package of two files
```go
// a.go, positions 1..300
func ping(xs []int) { for _, x := range xs { pong(x) } }           // decl 60, loop 90, call 120
func list(ys []int) { for _, y := range ys { db.Query("q", y) } }  // decl 160, loop 190, db 220
// b.go, positions 301..500
func pong(n int) { ping(nil) }                                     // decl 400, call 430
```
-/
def rtPass : Pass :=
  { files := [⟨1, 300, [rtPing, rtList]⟩, ⟨301, 500, [rtPong]⟩], typeOf := sqlOnly }

/-- The file `b.go` of `tidyPass`. -/
def tidyFile : File :=
  ⟨201, 600, [funcDecl 300 [queryStmt 330, callStmt 360 500], funcDecl 500 []]⟩

/-- The package of two files
```go
// a.go, positions 1..200
func a(xs []int) { for _, x := range xs { fetch(x) } }     // loop 90, call 120
// b.go, positions 201..600
func fetch(n int) { db.Query("q", n); tidy(n) }            // decl 300, db 330, call 360
func tidy(n int) { }                                       // decl 500
```
-/
def tidyPass : Pass :=
  { files := [⟨1, 200, [funcDecl 60 [rangeLoop 90 (foreignCallStmt 120 305)]]⟩, tidyFile],
    typeOf := sqlOnly }

/-! ## The walk as a left-to-right pass over the visited nodes -/

theorem forEach_append (f : Node → State → Except Fault State) (a b : List Node)
    (st : State) :
    forEach f (a ++ b) st =
      match forEach f a st with
      | .error e => .error e
      | .ok st1 => forEach f b st1 := by
  induction a generalizing st with
  | nil => simp [forEach]
  | cons n ns ih =>
    simp only [List.cons_append, forEach]
    cases h : f n st with
    | error e => simp
    | ok st1 => simpa using ih st1

section VisitEquations

variable (P : Pass) (recur : Node → Option Node → State → Except Fault State)
  (root : Node) (parent : Option Node) (st : State)

theorem visit_ident (id : Ident) :
    visit P recur root parent (.ident id) st =
      if isQueryIdent st.sqlTypes (.ident id) = true then
        .ok (false, { st.report (parent.getD (.ident id)).pos with
                      funcCache := st.funcCache.set root.pos true })
      else .ok (true, st) := by
  cases ht : id.typ with
  | none => simp [visit, isQueryIdent, ht]
  | some tv => simp [visit, isQueryIdent, ht]

theorem visit_node (k : Kind) (p : Pos) (cs : List Node) :
    visit P recur root parent (.node k p cs) st = .ok (true, st) := by
  simp [visit]

theorem visit_call_call (f : Node) (a args : List Node) :
    visit P recur root parent (.call (.call f a) args) st = .ok (true, st) := by
  simp [visit]

theorem visit_call_node (k : Kind) (p : Pos) (cs args : List Node) :
    visit P recur root parent (.call (.node k p cs) args) st = .ok (true, st) := by
  simp [visit]

theorem visit_call_nil (funcExpr : Ident) (args : List Node)
    (h : funcExpr.obj = ObjRef.nil) :
    visit P recur root parent (.call (.ident funcExpr) args) st =
      anotherFileSearch P recur funcExpr (.call (.ident funcExpr) args) st := by
  simp [visit, h]

theorem visit_call_other (funcExpr : Ident) (args : List Node)
    (h : funcExpr.obj = ObjRef.other) :
    visit P recur root parent (.call (.ident funcExpr) args) st = .ok (true, st) := by
  simp [visit, h]

theorem visit_call_dangling (funcExpr : Ident) (args : List Node) (k : Pos)
    (h : funcExpr.obj = ObjRef.funcDecl k) (hd : declAt P k = none) :
    visit P recur root parent (.call (.ident funcExpr) args) st = .ok (true, st) := by
  simp [visit, h, hd]

theorem visit_call_first (funcExpr : Ident) (args : List Node) (k : Pos) (decl : Node)
    (h : funcExpr.obj = ObjRef.funcDecl k) (hd : declAt P k = some decl)
    (hs : st.searchCache.get decl.pos = false) :
    visit P recur root parent (.call (.ident funcExpr) args) st =
      match recur decl (some (.call (.ident funcExpr) args))
          { st with searchCache := st.searchCache.set decl.pos true } with
      | .error e => .error e
      | .ok st1 => .ok (true, st1) := by
  simp [visit, h, hd, hs]

theorem visit_call_again (funcExpr : Ident) (args : List Node) (k : Pos) (decl : Node)
    (h : funcExpr.obj = ObjRef.funcDecl k) (hd : declAt P k = some decl)
    (hs : st.searchCache.get decl.pos = true) :
    visit P recur root parent (.call (.ident funcExpr) args) st =
      if st.funcCache.get decl.pos = true then
        .ok (true, st.report (Node.call (.ident funcExpr) args).pos)
      else .ok (true, st) := by
  simp [visit, h, hd, hs]

theorem anotherFileSearch_none (funcExpr : Ident) (parentNode : Node)
    (h : funcExpr.objectOf.bind (fileOf P) = none) :
    anotherFileSearch P recur funcExpr parentNode st = .ok (false, st) := by
  unfold anotherFileSearch
  cases ho : funcExpr.objectOf with
  | none => rfl
  | some p =>
    rw [ho] at h
    simp only [Option.some_bind] at h
    simp [h]

theorem anotherFileSearch_some (funcExpr : Ident) (parentNode : Node) (p : Pos)
    (file : File) (ho : funcExpr.objectOf = some p) (hf : fileOf P p = some file) :
    anotherFileSearch P recur funcExpr parentNode st =
      match forEach (fun n s => recur n (some parentNode) s) (funcDeclsOf file) st with
      | .error e => .error e
      | .ok st1 => .ok (false, st1) := by
  simp [anotherFileSearch, ho, hf]

end VisitEquations

theorem forEach_singleton (f : Node → State → Except Fault State) (n : Node) (st : State) :
    forEach f [n] st = f n st := by
  simp only [forEach]
  cases f n st <;> rfl

theorem visit_answer (P : Pass) (recur : Node → Option Node → State → Except Fault State)
    (root : Node) (parent : Option Node) (n : Node) (st st1 : State) (b : Bool)
    (h : visit P recur root parent n st = .ok (b, st1))
    (hn : ∀ id, n ≠ .ident id) : b = !prunes n := by
  cases n with
  | ident id => exact absurd rfl (hn id)
  | node k p cs =>
    rw [visit_node] at h
    simp only [Except.ok.injEq, Prod.mk.injEq] at h
    simp [prunes, ← h.1]
  | call fn args =>
    cases fn with
    | call f2 a2 =>
      rw [visit_call_call] at h
      simp only [Except.ok.injEq, Prod.mk.injEq] at h
      simp [prunes, ← h.1]
    | node k p cs =>
      rw [visit_call_node] at h
      simp only [Except.ok.injEq, Prod.mk.injEq] at h
      simp [prunes, ← h.1]
    | ident funcExpr =>
      cases hobj : funcExpr.obj with
      | other =>
        rw [visit_call_other _ _ _ _ _ _ _ hobj] at h
        simp only [Except.ok.injEq, Prod.mk.injEq] at h
        simp [prunes, hobj, ← h.1]
      | nil =>
        rw [visit_call_nil _ _ _ _ _ _ _ hobj] at h
        simp only [prunes, hobj]
        cases hb : funcExpr.objectOf.bind (fileOf P) with
        | none =>
          rw [anotherFileSearch_none _ _ _ _ _ hb] at h
          simp only [Except.ok.injEq, Prod.mk.injEq] at h
          simp [← h.1]
        | some file =>
          obtain ⟨p, ho, hf⟩ := Option.bind_eq_some.mp hb
          rw [anotherFileSearch_some _ _ _ _ _ _ _ ho hf] at h
          cases hr : forEach (fun n s => recur n (some (Node.call (.ident funcExpr) args)) s)
              (funcDeclsOf file) st with
          | error e => rw [hr] at h; simp at h
          | ok s2 =>
            rw [hr] at h
            simp only [Except.ok.injEq, Prod.mk.injEq] at h
            simp [← h.1]
      | funcDecl k =>
        simp only [prunes, hobj]
        cases hd : declAt P k with
        | none =>
          rw [visit_call_dangling _ _ _ _ _ _ _ _ hobj hd] at h
          simp only [Except.ok.injEq, Prod.mk.injEq] at h
          simp [← h.1]
        | some decl =>
          cases hs : st.searchCache.get decl.pos with
          | false =>
            rw [visit_call_first _ _ _ _ _ _ _ _ _ hobj hd hs] at h
            cases hr : recur decl (some (Node.call (.ident funcExpr) args))
                { st with searchCache := st.searchCache.set decl.pos true } with
            | error e => rw [hr] at h; simp at h
            | ok s2 =>
              rw [hr] at h
              simp only [Except.ok.injEq, Prod.mk.injEq] at h
              simp [← h.1]
          | true =>
            rw [visit_call_again _ _ _ _ _ _ _ _ _ hobj hd hs] at h
            split at h <;>
              (simp only [Except.ok.injEq, Prod.mk.injEq] at h; simp [← h.1])

mutual
theorem inspect_eq_forEach (P : Pass)
    (recur : Node → Option Node → State → Except Fault State)
    (root : Node) (parent : Option Node) :
    ∀ (n : Node) (st : State),
      inspect (visit P recur root parent) n st =
        forEach (visitSt P recur root parent) (walked n) st
  | .ident id, st => by
    simp only [inspect, walked, forEach, visitSt]
    cases visit P recur root parent (.ident id) st with
    | error e => rfl
    | ok r => rfl
  | .node k p cs, st => by
    simp only [inspect, walked, forEach, visitSt, visit_node]
    exact inspectList_eq_forEach P recur root parent cs st
  | .call fn args, st => by
    simp only [inspect, walked]
    cases h : visit P recur root parent (.call fn args) st with
    | error e =>
      by_cases hp : prunes (.call fn args) = true <;>
        simp [hp, forEach, visitSt, h]
    | ok r =>
      obtain ⟨b, s1⟩ := r
      have hb := visit_answer P recur root parent _ st s1 b h (by intro id; simp)
      by_cases hp : prunes (.call fn args) = true
      · simp only [hp, Bool.not_true] at hb
        subst hb
        simp [hp, forEach, visitSt, h]
      · simp only [Bool.not_eq_true] at hp
        simp only [hp, Bool.not_false] at hb
        subst hb
        simp only [hp, Bool.false_eq_true, if_false, forEach, visitSt, h, forEach_append]
        rw [inspect_eq_forEach P recur root parent fn s1]
        cases forEach (visitSt P recur root parent) (walked fn) s1 with
        | error e => rfl
        | ok s2 => exact inspectList_eq_forEach P recur root parent args s2
theorem inspectList_eq_forEach (P : Pass)
    (recur : Node → Option Node → State → Except Fault State)
    (root : Node) (parent : Option Node) :
    ∀ (ns : List Node) (st : State),
      inspectList (visit P recur root parent) ns st =
        forEach (visitSt P recur root parent) (walkedList ns) st
  | [], st => by simp [inspectList, walkedList, forEach]
  | n :: ns, st => by
    simp only [inspectList, walkedList, forEach_append]
    rw [inspect_eq_forEach P recur root parent n st]
    cases forEach (visitSt P recur root parent) (walked n) st with
    | error e => rfl
    | ok s1 => exact inspectList_eq_forEach P recur root parent ns s1
end

theorem findQuery_zero (P : Pass) (root : Node) (parent : Option Node) (st : State) :
    findQuery P 0 root parent st = .error .outOfFuel := rfl

theorem findQuery_succ (P : Pass) (fuel : Nat) (root : Node) (parent : Option Node)
    (st : State) :
    findQuery P (fuel + 1) root parent st =
      if st.funcCache.Exists root.pos = true then
        if st.funcCache.get root.pos = true then
          match parent with
          | none => .error .nilDeref
          | some p =>
            .ok (State.report
              { st with calls := st.calls ++ [(root.pos, parent.map Node.pos)] } p.pos)
        else .ok { st with calls := st.calls ++ [(root.pos, parent.map Node.pos)] }
      else
        forEach (visitSt P (findQuery P fuel) root parent) (walked root)
          { st with calls := st.calls ++ [(root.pos, parent.map Node.pos)],
                    walks := st.walks ++ [root.pos] } := by
  simp only [findQuery, inspect_eq_forEach]

theorem declAt_mem {P : Pass} {k : Pos} {d : Node} (h : declAt P k = some d) :
    d ∈ allFuncDecls P ∧ d.pos = k := by
  unfold declAt at h
  refine ⟨List.mem_of_find?_eq_some h, ?_⟩
  have := List.find?_some h
  simpa using this

theorem fileOf_mem {P : Pass} {p : Pos} {file : File} (h : fileOf P p = some file) :
    file ∈ P.files := List.mem_of_find?_eq_some h

theorem funcDeclsOf_subset {P : Pass} {file : File} (h : file ∈ P.files) {d : Node}
    (hd : d ∈ funcDeclsOf file) : d ∈ allFuncDecls P := by
  unfold allFuncDecls
  exact List.mem_flatMap.mpr ⟨file, h, hd⟩

/-! ## A rule of inference for properties kept by every elementary step -/

theorem forEach_closed {R : State → State → Prop} (hrefl : ∀ st, R st st)
    (htrans : ∀ a b c, R a b → R b c → R a c)
    (f : Node → State → Except Fault State) (l : List Node)
    (hf : ∀ n, n ∈ l → ∀ s s1, f n s = .ok s1 → R s s1) :
    ∀ st st1, forEach f l st = .ok st1 → R st st1 := by
  induction l with
  | nil =>
    intro st st1 h
    simp only [forEach, Except.ok.injEq] at h
    exact h ▸ hrefl st
  | cons n ns ih =>
    intro st st1 h
    simp only [forEach] at h
    cases hn : f n st with
    | error e => rw [hn] at h; simp at h
    | ok s1 =>
      rw [hn] at h
      exact htrans _ _ _ (hf n (List.mem_cons_self _ _) st s1 hn)
        (ih (fun m hm => hf m (List.mem_cons_of_mem _ hm)) s1 st1 h)

theorem visitSt_closed {P : Pass} {Rt : Node → Prop} {R : State → State → Prop}
    (hR : StepClosed P Rt R)
    (recur : Node → Option Node → State → Except Fault State)
    (hrec : ∀ (d p : Node) (s s1 : State), Rt d → recur d (some p) s = .ok s1 → R s s1)
    (root : Node) (parent : Option Node) (hroot : Rt root)
    (m : Node) (hm : m ∈ walked root) (st st1 : State)
    (h : visitSt P recur root parent m st = .ok st1) : R st st1 := by
  unfold visitSt at h
  cases m with
  | ident id =>
    rw [visit_ident] at h
    by_cases hq : isQueryIdent st.sqlTypes (.ident id) = true
    · simp only [hq, if_true, Except.ok.injEq] at h
      exact h ▸ hR.hit st root _ _ hroot hm hq
    · simp only [hq, Bool.false_eq_true, if_false, Except.ok.injEq] at h
      exact h ▸ hR.refl st
  | node k p cs =>
    rw [visit_node] at h
    simp only [Except.ok.injEq] at h
    exact h ▸ hR.refl st
  | call fn args =>
    cases fn with
    | call f2 a2 =>
      rw [visit_call_call] at h
      simp only [Except.ok.injEq] at h
      exact h ▸ hR.refl st
    | node k p cs =>
      rw [visit_call_node] at h
      simp only [Except.ok.injEq] at h
      exact h ▸ hR.refl st
    | ident funcExpr =>
      cases hobj : funcExpr.obj with
      | other =>
        rw [visit_call_other _ _ _ _ _ _ _ hobj] at h
        simp only [Except.ok.injEq] at h
        exact h ▸ hR.refl st
      | nil =>
        rw [visit_call_nil _ _ _ _ _ _ _ hobj] at h
        cases hb : funcExpr.objectOf.bind (fileOf P) with
        | none =>
          rw [anotherFileSearch_none _ _ _ _ _ hb] at h
          simp only [Except.ok.injEq] at h
          exact h ▸ hR.refl st
        | some file =>
          obtain ⟨p, ho, hf⟩ := Option.bind_eq_some.mp hb
          rw [anotherFileSearch_some _ _ _ _ _ _ _ ho hf] at h
          cases hr : forEach (fun n s => recur n (some (Node.call (.ident funcExpr) args)) s)
              (funcDeclsOf file) st with
          | error e => rw [hr] at h; simp at h
          | ok s2 =>
            rw [hr] at h
            simp only [Except.ok.injEq] at h
            subst h
            refine forEach_closed hR.refl hR.trans _ _ ?_ st s2 hr
            intro d hd s s1 hs
            exact hrec d _ s s1 (hR.decls d (funcDeclsOf_subset (fileOf_mem hf) hd)) hs
      | funcDecl k =>
        cases hd : declAt P k with
        | none =>
          rw [visit_call_dangling _ _ _ _ _ _ _ _ hobj hd] at h
          simp only [Except.ok.injEq] at h
          exact h ▸ hR.refl st
        | some decl =>
          have hmem := (declAt_mem hd).1
          cases hs : st.searchCache.get decl.pos with
          | false =>
            rw [visit_call_first _ _ _ _ _ _ _ _ _ hobj hd hs] at h
            cases hr : recur decl (some (Node.call (.ident funcExpr) args))
                { st with searchCache := st.searchCache.set decl.pos true } with
            | error e => rw [hr] at h; simp at h
            | ok s2 =>
              rw [hr] at h
              simp only [Except.ok.injEq] at h
              subst h
              exact hR.trans _ _ _ (hR.start st decl hmem hs)
                (hrec decl _ _ _ (hR.decls decl hmem) hr)
          | true =>
            rw [visit_call_again _ _ _ _ _ _ _ _ _ hobj hd hs] at h
            by_cases hg : st.funcCache.get decl.pos = true
            · simp only [hg, if_true, Except.ok.injEq] at h
              exact h ▸ hR.again st decl _ hmem hs hg
            · simp only [hg, Bool.false_eq_true, if_false, Except.ok.injEq] at h
              exact h ▸ hR.refl st

/-- Every successful call of `findQuery` with a report target respects a
step-closed relation. -/
theorem findQuery_closed {P : Pass} {Rt : Node → Prop} {R : State → State → Prop}
    (hR : StepClosed P Rt R) :
    ∀ (fuel : Nat) (root p : Node) (st st1 : State), Rt root →
      findQuery P fuel root (some p) st = .ok st1 → R st st1 := by
  intro fuel
  induction fuel with
  | zero => intro root p st st1 _ h; simp [findQuery_zero] at h
  | succ fuel ih =>
    intro root p st st1 hroot h
    rw [findQuery_succ] at h
    have hin := hR.enter st root p hroot
    by_cases he : st.funcCache.Exists root.pos = true
    · by_cases hg : st.funcCache.get root.pos = true
      · simp only [he, hg, if_true, Option.map_some', Except.ok.injEq] at h
        subst h
        exact hR.trans _ _ _ hin (hR.cached _ root p hroot hg)
      · simp only [he, hg, if_true, Bool.false_eq_true, if_false, Option.map_some',
          Except.ok.injEq] at h
        exact h ▸ hin
    · simp only [he, Bool.false_eq_true, if_false, Option.map_some'] at h
      simp only [Bool.not_eq_true] at he
      refine hR.trans _ _ _ hin (hR.trans _ _ _ (hR.walk _ root hroot he) ?_)
      refine forEach_closed hR.refl hR.trans _ _ ?_ _ st1 h
      intro m hm s s1 hs
      exact visitSt_closed hR _ (fun d q s s1 hd hq => ih d q s s1 hd hq) root _ hroot m hm s s1 hs

/-- The same for a call without report target, after its entry is logged. -/
theorem findQuery_closed_root {P : Pass} {Rt : Node → Prop} {R : State → State → Prop}
    (hR : StepClosed P Rt R) (fuel : Nat) (root : Node) (st st1 : State) (hroot : Rt root)
    (h : findQuery P fuel root none st = .ok st1) :
    R { st with calls := st.calls ++ [(root.pos, none)] } st1 := by
  cases fuel with
  | zero => simp [findQuery_zero] at h
  | succ fuel =>
    rw [findQuery_succ] at h
    by_cases he : st.funcCache.Exists root.pos = true
    · by_cases hg : st.funcCache.get root.pos = true
      · simp [he, hg] at h
      · simp only [he, hg, if_true, Bool.false_eq_true, if_false, Option.map_none',
          Except.ok.injEq] at h
        exact h ▸ hR.refl _
    · simp only [he, Bool.false_eq_true, if_false, Option.map_none'] at h
      simp only [Bool.not_eq_true] at he
      refine hR.trans _ _ _ (hR.walk _ root hroot he) ?_
      refine forEach_closed hR.refl hR.trans _ _ ?_ _ st1 h
      intro m hm s s1 hs
      exact visitSt_closed hR _ (fun d q s s1 hd hq => findQuery_closed hR fuel d q s s1 hd hq)
        root _ hroot m hm s s1 hs

/-! ## More fuel never changes a result -/

theorem forEach_mono (f g : Node → State → Except Fault State) (l : List Node)
    (hfg : ∀ n, n ∈ l → ∀ s s1, f n s = .ok s1 → g n s = .ok s1) :
    ∀ st st1, forEach f l st = .ok st1 → forEach g l st = .ok st1 := by
  induction l with
  | nil => intro st st1 h; simpa [forEach] using h
  | cons n ns ih =>
    intro st st1 h
    simp only [forEach] at h ⊢
    cases hn : f n st with
    | error e => rw [hn] at h; simp at h
    | ok s1 =>
      rw [hn] at h
      rw [hfg n (List.mem_cons_self _ _) st s1 hn]
      exact ih (fun m hm => hfg m (List.mem_cons_of_mem _ hm)) s1 st1 h

theorem visitSt_mono (P : Pass)
    (r1 r2 : Node → Option Node → State → Except Fault State)
    (hle : ∀ d p s s1, r1 d p s = .ok s1 → r2 d p s = .ok s1)
    (root : Node) (parent : Option Node) (m : Node) (st st1 : State)
    (h : visitSt P r1 root parent m st = .ok st1) :
    visitSt P r2 root parent m st = .ok st1 := by
  unfold visitSt at h ⊢
  cases m with
  | ident id => rw [visit_ident] at h ⊢; exact h
  | node k p cs => rw [visit_node] at h ⊢; exact h
  | call fn args =>
    cases fn with
    | call f2 a2 => rw [visit_call_call] at h ⊢; exact h
    | node k p cs => rw [visit_call_node] at h ⊢; exact h
    | ident funcExpr =>
      cases hobj : funcExpr.obj with
      | other => rw [visit_call_other _ _ _ _ _ _ _ hobj] at h ⊢; exact h
      | nil =>
        rw [visit_call_nil _ _ _ _ _ _ _ hobj] at h ⊢
        cases hb : funcExpr.objectOf.bind (fileOf P) with
        | none => rw [anotherFileSearch_none _ _ _ _ _ hb] at h ⊢; exact h
        | some file =>
          obtain ⟨p, ho, hf⟩ := Option.bind_eq_some.mp hb
          rw [anotherFileSearch_some _ _ _ _ _ _ _ ho hf] at h ⊢
          cases hr : forEach (fun n s => r1 n (some (Node.call (.ident funcExpr) args)) s)
              (funcDeclsOf file) st with
          | error e => rw [hr] at h; simp at h
          | ok s2 =>
            rw [hr] at h
            rw [forEach_mono _ (fun n s => r2 n (some (Node.call (.ident funcExpr) args)) s) _
              (fun n _ s s1 hs => hle n _ s s1 hs) st s2 hr]
            exact h
      | funcDecl k =>
        cases hd : declAt P k with
        | none => rw [visit_call_dangling _ _ _ _ _ _ _ _ hobj hd] at h ⊢; exact h
        | some decl =>
          cases hs : st.searchCache.get decl.pos with
          | false =>
            rw [visit_call_first _ _ _ _ _ _ _ _ _ hobj hd hs] at h ⊢
            cases hr : r1 decl (some (Node.call (.ident funcExpr) args))
                { st with searchCache := st.searchCache.set decl.pos true } with
            | error e => rw [hr] at h; simp at h
            | ok s2 =>
              rw [hr] at h
              rw [hle _ _ _ _ hr]
              exact h
          | true => rw [visit_call_again _ _ _ _ _ _ _ _ _ hobj hd hs] at h ⊢; exact h

theorem findQuery_fuel_succ (P : Pass) :
    ∀ (fuel : Nat) (root : Node) (parent : Option Node) (st st1 : State),
      findQuery P fuel root parent st = .ok st1 →
      findQuery P (fuel + 1) root parent st = .ok st1 := by
  intro fuel
  induction fuel with
  | zero => intro root parent st st1 h; simp [findQuery_zero] at h
  | succ fuel ih =>
    intro root parent st st1 h
    rw [findQuery_succ] at h ⊢
    by_cases he : st.funcCache.Exists root.pos = true
    · simpa only [he, if_true] using h
    · simp only [he, Bool.false_eq_true, if_false] at h ⊢
      exact forEach_mono _ _ _
        (fun m _ s s1 hs => visitSt_mono P _ _ ih root parent m s s1 hs) _ st1 h

theorem findQuery_fuel_le (P : Pass) {fuel fuel1 : Nat} (hle : fuel ≤ fuel1)
    {root : Node} {parent : Option Node} {st st1 : State}
    (h : findQuery P fuel root parent st = .ok st1) :
    findQuery P fuel1 root parent st = .ok st1 := by
  induction hle with
  | refl => exact h
  | step _ ih => exact findQuery_fuel_succ P _ _ _ _ _ ih

/-- Two successful calls on the same arguments agree, whatever their fuel. -/
theorem findQuery_fuel_unique (P : Pass) {f1 f2 : Nat} {root : Node}
    {parent : Option Node} {st s1 s2 : State}
    (h1 : findQuery P f1 root parent st = .ok s1)
    (h2 : findQuery P f2 root parent st = .ok s2) : s1 = s2 := by
  have a := findQuery_fuel_le P (Nat.le_max_left f1 f2) h1
  have b := findQuery_fuel_le P (Nat.le_max_right f1 f2) h2
  rw [a] at b
  exact Except.ok.inj b

/-! ## Walks that meet no expandable call -/

theorem Memo.set_set (m : Memo) (k : Pos) (v : Bool) : (m.set k v).set k v = m.set k v := by
  funext x
  simp only [Memo.set]
  split <;> rfl

theorem Memo.get_set_self (m : Memo) (k : Pos) (v : Bool) : (m.set k v).get k = v := by
  simp [Memo.get, Memo.set]

theorem Memo.Exists_set_self (m : Memo) (k : Pos) (v : Bool) : (m.set k v).Exists k = true := by
  simp [Memo.Exists, Memo.set]

theorem Memo.get_set_ne (m : Memo) {k x : Pos} (v : Bool) (h : x ≠ k) :
    (m.set k v).get x = m.get x := by
  simp [Memo.get, Memo.set, h]

theorem Memo.Exists_set_ne (m : Memo) {k x : Pos} (v : Bool) (h : x ≠ k) :
    (m.set k v).Exists x = m.Exists x := by
  simp [Memo.Exists, Memo.set, h]

theorem Memo.get_empty (k : Pos) : Memo.empty.get k = false := rfl

theorem Memo.Exists_empty (k : Pos) : Memo.empty.Exists k = false := rfl

theorem visitSt_inert (P : Pass) (recur : Node → Option Node → State → Except Fault State)
    (root : Node) (parent : Option Node) (m : Node) (st : State)
    (hq : isQueryIdent st.sqlTypes m = false) (hl : isLiveCall P m = false) :
    visitSt P recur root parent m st = .ok st := by
  unfold visitSt
  cases m with
  | ident id => rw [visit_ident]; simp [hq]
  | node k p cs => rw [visit_node]
  | call fn args =>
    cases fn with
    | call f2 a2 => rw [visit_call_call]
    | node k p cs => rw [visit_call_node]
    | ident funcExpr =>
      cases hobj : funcExpr.obj with
      | other => rw [visit_call_other _ _ _ _ _ _ _ hobj]
      | nil =>
        have hb : funcExpr.objectOf.bind (fileOf P) = none := by
          simpa [isLiveCall, hobj] using hl
        rw [visit_call_nil _ _ _ _ _ _ _ hobj, anotherFileSearch_none _ _ _ _ _ hb]
      | funcDecl k =>
        have hd : declAt P k = none := by simpa [isLiveCall, hobj] using hl
        rw [visit_call_dangling _ _ _ _ _ _ _ _ hobj hd]

theorem visitSt_hit (P : Pass) (recur : Node → Option Node → State → Except Fault State)
    (root : Node) (parent : Option Node) (m : Node) (st : State)
    (hq : isQueryIdent st.sqlTypes m = true) :
    visitSt P recur root parent m st =
      .ok { st.report (parent.getD m).pos with
            funcCache := st.funcCache.set root.pos true } := by
  unfold visitSt
  cases m with
  | ident id => rw [visit_ident]; simp [hq]
  | node k p cs => simp [isQueryIdent] at hq
  | call fn args => simp [isQueryIdent] at hq

/-- The registry is never written by `findQuery`. -/
theorem sqlTypes_closed (P : Pass) :
    StepClosed P (fun _ => True) (fun a b => b.sqlTypes = a.sqlTypes) where
  decls := fun _ _ => trivial
  refl := fun _ => rfl
  trans := fun _ _ _ h1 h2 => h2.trans h1
  enter := fun _ _ _ _ => rfl
  walk := fun _ _ _ _ => rfl
  cached := fun _ _ _ _ _ => rfl
  hit := fun _ _ _ _ _ _ _ => rfl
  start := fun _ _ _ _ => rfl
  again := fun _ _ _ _ _ _ => rfl

theorem visitSt_sqlTypes (P : Pass) (fuel : Nat) (root : Node) (parent : Option Node)
    (m : Node) (hm : m ∈ walked root) (st st1 : State)
    (h : visitSt P (findQuery P fuel) root parent m st = .ok st1) :
    st1.sqlTypes = st.sqlTypes :=
  visitSt_closed (sqlTypes_closed P) _
    (fun d p s s1 hd hq => findQuery_closed (sqlTypes_closed P) fuel d p s s1 hd hq)
    root parent trivial m hm st st1 h

/-- Nodes at which the visitor does nothing can be dropped from the walk. -/
theorem forEach_active (P : Pass) (fuel : Nat) (root : Node) (parent : Option Node)
    (l : List Node) (hl : ∀ m, m ∈ l → m ∈ walked root) :
    ∀ st : State,
      forEach (visitSt P (findQuery P fuel) root parent) l st =
        forEach (visitSt P (findQuery P fuel) root parent)
          (l.filter (acts P st.sqlTypes)) st := by
  induction l with
  | nil => intro st; rfl
  | cons m ms ih =>
    intro st
    have ihm := ih (fun x hx => hl x (List.mem_cons_of_mem _ hx))
    by_cases ha : acts P st.sqlTypes m = true
    · rw [List.filter_cons_of_pos ha]
      simp only [forEach]
      cases hv : visitSt P (findQuery P fuel) root parent m st with
      | error e => rfl
      | ok s1 =>
        have hs := visitSt_sqlTypes P fuel root parent m (hl m (List.mem_cons_self _ _)) st s1 hv
        simp only
        rw [ihm s1, hs]
    · rw [List.filter_cons_of_neg ha]
      simp only [acts, Bool.or_eq_true, not_or, Bool.not_eq_true] at ha
      simp only [forEach, visitSt_inert P _ root parent m st ha.1 ha.2]
      exact ihm st

/-- A call of `findQuery` on a root without verdict is the pass of the visitor
over the active nodes of the root. -/
theorem findQuery_walk (P : Pass) (fuel : Nat) (root : Node) (parent : Option Node)
    (st : State) (he : st.funcCache.Exists root.pos = false) :
    findQuery P (fuel + 1) root parent st =
      forEach (visitSt P (findQuery P fuel) root parent) (active P st.sqlTypes root)
        { st with calls := st.calls ++ [(root.pos, parent.map Node.pos)],
                  walks := st.walks ++ [root.pos] } := by
  rw [findQuery_succ]
  simp only [he, Bool.false_eq_true, if_false]
  rw [forEach_active P fuel root parent (walked root) (fun _ h => h)]
  rfl

theorem reportsOf_eq_some {r : Except Fault State} {l : List Pos}
    (h : reportsOf r = some l) : ∃ st, r = .ok st ∧ st.reports = l := by
  cases r with
  | error e => simp [reportsOf] at h
  | ok st => exact ⟨st, rfl, by simpa [reportsOf] using h⟩

/-- What one fuel reports, every fuel that returns reports. -/
theorem reports_unique (P : Pass) {f1 f2 : Nat} {root : Node} {parent : Option Node}
    {st st1 : State} {l : List Pos}
    (h1 : reportsOf (findQuery P f1 root parent st) = some l)
    (h2 : findQuery P f2 root parent st = .ok st1) : st1.reports = l := by
  obtain ⟨s, hs, hl⟩ := reportsOf_eq_some h1
  rw [findQuery_fuel_unique P h2 hs]
  exact hl

theorem walksOf_eq_some {r : Except Fault State} {l : List Pos}
    (h : walksOf r = some l) : ∃ st, r = .ok st ∧ st.walks = l := by
  cases r with
  | error e => simp [walksOf] at h
  | ok st => exact ⟨st, rfl, by simpa [walksOf] using h⟩

theorem run_fuel_le (P : Pass) {fuel fuel1 : Nat} (hle : fuel ≤ fuel1) {g st1 : State}
    (h : run P fuel g = .ok st1) : run P fuel1 g = .ok st1 := by
  unfold run at h ⊢
  by_cases he : (prepareTypes P (State.fresh g.sqlTypes)).sqlTypes.isEmpty = true
  · simpa only [he, if_true] using h
  · simp only [he, Bool.false_eq_true, if_false] at h ⊢
    exact forEach_mono _ _ _ (fun n _ s s1 hs => findQuery_fuel_le P hle hs) _ st1 h

/-- Two runs that return agree, whatever their fuel. -/
theorem run_fuel_unique (P : Pass) {f1 f2 : Nat} {g s1 s2 : State}
    (h1 : run P f1 g = .ok s1) (h2 : run P f2 g = .ok s2) : s1 = s2 := by
  have a := run_fuel_le P (Nat.le_max_left f1 f2) h1
  have b := run_fuel_le P (Nat.le_max_right f1 f2) h2
  rw [a] at b
  exact Except.ok.inj b

/-! ## Direct hit (C2) -/

/-- C2, as stated, fails: on the loop `for _, x := range xs { db.Query("q", x) }`
(range statement at 90, `db` at 120) `findQuery(loop, nil)` from empty memo
stores emits one report, at 120, the identifier `db`; no fuel makes it report
at the loop statement. -/
theorem C2_report_is_not_at_loop :
    reportsOf (findQuery directPass 1 directLoop none (State.fresh [1])) = some [120] ∧
    directLoop.pos = 90 ∧
    ¬ ∃ fuel st1, findQuery directPass fuel directLoop none (State.fresh [1]) = .ok st1 ∧
        st1.reports = [directLoop.pos] := by
  have h : reportsOf (findQuery directPass 1 directLoop none (State.fresh [1])) = some [120] := by
    decide
  refine ⟨h, rfl, ?_⟩
  rintro ⟨fuel, st1, hq, hr⟩
  rw [reports_unique directPass h hq] at hr
  exact absurd hr (by decide)

/-- C2, amended: when the walk of a loop meets exactly one identifier of
registered type and no call that the call rule expands, `findQuery(loop, nil)`
started with an empty verdict memo returns having emitted exactly one report,
positioned at that identifier (not at the loop statement). -/
theorem C2_direct_hit_at_identifier (P : Pass) (loop : Node) (id : Ident) (st : State)
    (hfc : st.funcCache = Memo.empty)
    (hloop : active P st.sqlTypes loop = [.ident id]) :
    ∃ st1, findQuery P 1 loop none st = .ok st1 ∧ st1.reports = st.reports ++ [id.pos] := by
  have he : st.funcCache.Exists loop.pos = false := by rw [hfc]; rfl
  have hq : isQueryIdent st.sqlTypes (.ident id) = true := by
    have hmem : Node.ident id ∈ active P st.sqlTypes loop := by rw [hloop]; simp
    have := (List.mem_filter.mp hmem).2
    simpa [acts, isLiveCall] using this
  rw [findQuery_walk P 0 loop none st he, hloop, forEach_singleton]
  exact ⟨_, visitSt_hit P _ loop none _ _ hq, rfl⟩

/-- C2, amended, at the sample loop. -/
theorem C2_direct_hit_witness :
    active directPass (State.fresh [1]).sqlTypes directLoop
        = [.ident ⟨120, some 1, .other, some 40⟩] ∧
    ∃ st1, findQuery directPass 1 directLoop none (State.fresh [1]) = .ok st1 ∧
        st1.reports = [120] :=
  ⟨rfl, C2_direct_hit_at_identifier directPass directLoop ⟨120, some 1, .other, some 40⟩
    (State.fresh [1]) rfl rfl⟩

/-! ## Transitive hit in the same file (C1) -/

/-- C1: the code departs from it. With `for _, x := range xs { fetch(x) }`
(call at 120) and, in the same file, `func fetch(n int) { db.Query("q", n);
fetch(n - 1) }`, the body of `fetch` holds exactly one identifier of registered
type (`db` at 180) and the loop holds none, yet `findQuery(loop, nil)` from
empty memo stores emits two reports: one at the call in the loop (120) and one
at the call inside the body of `fetch` (200). The walk of `fetch` does not end
at the hit (line 177 only prunes the children of `db`): it goes on to the call
at 200, which comes after `db` in the walk, finds the verdict of `fetch`
already true and reports there. -/
theorem C1_recursive_callee_reports_twice :
    ((walked chainLoop).filter (isQueryIdent [1])).map Node.pos = [] ∧
    ((walked fetchRec).filter (isQueryIdent [1])).map Node.pos = [180] ∧
    (active recPass [1] fetchRec).map Node.pos = [180, 200] ∧
    reportsOf (findQuery recPass 2 chainLoop none (State.fresh [1])) = some [120, 200] ∧
    ¬ ∃ fuel st1, findQuery recPass fuel chainLoop none (State.fresh [1]) = .ok st1 ∧
        st1.reports = [120] := by
  have h : reportsOf (findQuery recPass 2 chainLoop none (State.fresh [1]))
      = some [120, 200] := by decide
  refine ⟨by decide, by decide, by decide, h, ?_⟩
  rintro ⟨fuel, st1, hq, hr⟩
  rw [reports_unique recPass h hq] at hr
  exact absurd hr (by decide)

/-! ## An unresolvable callee is a dead end (C10) -/

/-- C10: when the callee of a call has no type-info object, or no file of the
pass contains that object's position, `anotherFileSearch` returns normally
with the state as it found it (no report, both memo stores unchanged), and so
does the visitor of `findQuery` on a call whose callee has no in-file
declaration object. -/
theorem C10_unresolvable_callee_is_dead_end (P : Pass)
    (recur : Node → Option Node → State → Except Fault State)
    (funcExpr : Ident) (st : State)
    (h : funcExpr.objectOf = none ∨
      ∃ p, funcExpr.objectOf = some p ∧ fileOf P p = none) :
    (∀ parentNode, anotherFileSearch P recur funcExpr parentNode st = .ok (false, st)) ∧
    (∀ root parent args, funcExpr.obj = ObjRef.nil →
      visitSt P recur root parent (.call (.ident funcExpr) args) st = .ok st) := by
  have hb : funcExpr.objectOf.bind (fileOf P) = none := by
    rcases h with h | ⟨p, hp, hf⟩
    · rw [h]; rfl
    · rw [hp]; exact hf
  refine ⟨fun parentNode => anotherFileSearch_none P recur st funcExpr parentNode hb, ?_⟩
  intro root parent args hobj
  unfold visitSt
  rw [visit_call_nil P recur root parent st funcExpr args hobj,
    anotherFileSearch_none P recur st funcExpr _ hb]

/-- C10 at a call of the built-in `println`, whose object has no position in
any file of `plainPass`. -/
theorem C10_unresolvable_callee_witness :
    fileOf plainPass 0 = none ∧
    (∀ parentNode, anotherFileSearch plainPass (findQuery plainPass 3)
        ⟨210, some 30, .nil, some 0⟩ parentNode (State.fresh [1])
        = .ok (false, State.fresh [1])) ∧
    (∀ root parent args,
      visitSt plainPass (findQuery plainPass 3) root parent
        (.call (.ident ⟨210, some 30, .nil, some 0⟩) args) (State.fresh [1])
        = .ok (State.fresh [1])) :=
  ⟨rfl,
    (C10_unresolvable_callee_is_dead_end plainPass (findQuery plainPass 3)
      ⟨210, some 30, .nil, some 0⟩ (State.fresh [1]) (Or.inr ⟨0, rfl, rfl⟩)).1,
    fun root parent args =>
      (C10_unresolvable_callee_is_dead_end plainPass (findQuery plainPass 3)
        ⟨210, some 30, .nil, some 0⟩ (State.fresh [1]) (Or.inr ⟨0, rfl, rfl⟩)).2
        root parent args rfl⟩

/-! ## Verdicts are not propagated to callers (C4) -/

/-- C4: in `chainPass` both loops call `load`, which reaches `db.Query` through
`fetch`. Analysed first, either loop yields the report at 280 (the call of
`fetch` inside `load`). Analysed after the other loop, the second loop is
walked and yields nothing: the run over both loops ends with the single report
of the first, because `load` never receives a verdict. -/
theorem C4_chain_verdict_is_lost :
    reportsOf (findQuery chainPass 3 chainLoopA none (State.fresh [1])) = some [280] ∧
    reportsOf (findQuery chainPass 3 chainLoopB none (State.fresh [1])) = some [280] ∧
    reportsOf ((findQuery chainPass 3 chainLoopA none (State.fresh [1])).bind
      (findQuery chainPass 3 chainLoopB none)) = some [280] ∧
    loops chainPass = [chainLoopA, chainLoopB] ∧
    walksOf (run chainPass 3 (State.fresh [])) = some [90, 250, 300, 190] ∧
    reportsOf (run chainPass 3 (State.fresh [])) = some [280] ∧
    (∀ fuel st1, run chainPass fuel (State.fresh []) = .ok st1 → st1.reports = [280]) := by
  have hr : reportsOf (run chainPass 3 (State.fresh [])) = some [280] := by decide
  refine ⟨by decide, by decide, by decide, rfl, by decide, hr, ?_⟩
  intro fuel st1 h
  obtain ⟨s2, hs2, hr2⟩ := reportsOf_eq_some hr
  rw [run_fuel_unique chainPass h hs2, hr2]

/-! ## Calls hidden in the arguments of an unresolved call (C5) -/

/-- C5: in `appendPass` the function `fetch` holds `db.Query` and is called by
simple name from the bodies of two loops, each time as an argument of the
built-in `append`. The run over both loops walks only the two loops (never
the body of `fetch`, at 300) and emits no report, where the claim asks for
reports at 138 and 238. With the calls as plain statements (`memoPass`) the
run walks `fetch` once and reports at both calls. -/
theorem C5_call_in_append_is_missed :
    (loops appendPass).map Node.pos = [90, 190] ∧
    walksOf (run appendPass 3 (State.fresh [])) = some [90, 190] ∧
    reportsOf (run appendPass 3 (State.fresh [])) = some [] ∧
    (∀ fuel st1, run appendPass fuel (State.fresh []) = .ok st1 →
      st1.walks.count 300 = 0 ∧ st1.reports = []) ∧
    walksOf (run memoPass 3 (State.fresh [])) = some [90, 300, 190] ∧
    reportsOf (run memoPass 3 (State.fresh [])) = some [120, 220] := by
  have hw : walksOf (run appendPass 3 (State.fresh [])) = some [90, 190] := by decide
  have hr : reportsOf (run appendPass 3 (State.fresh [])) = some [] := by decide
  refine ⟨by decide, hw, hr, ?_, by decide, by decide⟩
  intro fuel st1 h
  obtain ⟨s2, hs2, hw2⟩ := walksOf_eq_some hw
  obtain ⟨s3, hs3, hr3⟩ := reportsOf_eq_some hr
  rw [run_fuel_unique appendPass h hs2, hw2]
  rw [run_fuel_unique appendPass hs2 hs3, hr3]
  exact ⟨by decide, rfl⟩

/-! ## Functions reached across files are walked again (C8) -/

/-- C8: in `notePass` the loop calls `note`, declared in another file, twice.
The run walks the declaration of `note` (position 300) twice. -/
theorem C8_foreign_function_walked_twice :
    walksOf (run notePass 2 (State.fresh [])) = some [90, 300, 300] ∧
    (∀ fuel st1, run notePass fuel (State.fresh []) = .ok st1 →
      st1.walks.count 300 = 2) := by
  have h : walksOf (run notePass 2 (State.fresh [])) = some [90, 300, 300] := by decide
  refine ⟨h, ?_⟩
  intro fuel st1 hr
  obtain ⟨s2, hs2, hw⟩ := walksOf_eq_some h
  rw [run_fuel_unique notePass hr hs2, hw]
  decide

/-! ## Mutual recursion across files never returns (C7) -/

/-- In `pingPass`, with no verdict stored, neither declaration can be analysed
with any amount of fuel: each walk re-enters the other through
`anotherFileSearch`. -/
theorem ping_pong_diverge :
    ∀ (fuel : Nat) (parent : Option Node) (st : State),
      st.funcCache = Memo.empty → st.sqlTypes = [1] →
      findQuery pingPass fuel pongDecl parent st = .error .outOfFuel ∧
      findQuery pingPass fuel pingDecl parent st = .error .outOfFuel := by
  intro fuel
  induction fuel with
  | zero => intro parent st _ _; exact ⟨rfl, rfl⟩
  | succ n ih =>
    intro parent st hfc hty
    have hpong : active pingPass [1] pongDecl
        = [.call (.ident ⟨330, some 20, .nil, some 65⟩)
            [.ident ⟨336, some 11, .other, some 97⟩]] := rfl
    have hping : active pingPass [1] pingDecl
        = [.call (.ident ⟨120, some 20, .nil, some 305⟩)
            [.ident ⟨126, some 11, .other, some 97⟩]] := rfl
    constructor
    · rw [findQuery_walk pingPass n pongDecl parent st (by rw [hfc]; rfl), hty, hpong,
        forEach_singleton]
      unfold visitSt
      rw [visit_call_nil _ _ _ _ _ _ _ rfl,
        anotherFileSearch_some pingPass _ _ _ _ 65 ⟨1, 200, [pingDecl]⟩ rfl rfl]
      have hds : funcDeclsOf ⟨1, 200, [pingDecl]⟩ = [pingDecl] := rfl
      rw [hds, forEach_singleton, (ih _ _ (by exact hfc) (by rfl)).2]
    · rw [findQuery_walk pingPass n pingDecl parent st (by rw [hfc]; rfl), hty, hping,
        forEach_singleton]
      unfold visitSt
      rw [visit_call_nil _ _ _ _ _ _ _ rfl,
        anotherFileSearch_some pingPass _ _ _ _ 305 ⟨201, 400, [pongDecl]⟩ rfl rfl]
      have hds : funcDeclsOf ⟨201, 400, [pongDecl]⟩ = [pongDecl] := rfl
      rw [hds, forEach_singleton, (ih _ _ (by exact hfc) (by rfl)).1]

/-- C7: in `pingPass` (`ping` loops over calls of `pong`, declared in another
file, and `pong` calls `ping`) the analysis of the loop of `ping` from empty
memo stores does not return, however much fuel it is given, and neither does
the run over the package. -/
theorem C7_cross_file_cycle_never_returns :
    (∀ fuel, findQuery pingPass fuel pingLoop none (State.fresh [1]) = .error .outOfFuel) ∧
    (∀ fuel, run pingPass fuel (State.fresh []) = .error .outOfFuel) := by
  have hloop : ∀ fuel, findQuery pingPass fuel pingLoop none (State.fresh [1])
      = .error .outOfFuel := by
    intro fuel
    cases fuel with
    | zero => rfl
    | succ n =>
      have hact : active pingPass [1] pingLoop
          = [.call (.ident ⟨120, some 20, .nil, some 305⟩)
              [.ident ⟨126, some 11, .other, some 97⟩]] := rfl
      rw [findQuery_walk pingPass n pingLoop none (State.fresh [1]) rfl]
      have hty : (State.fresh [1]).sqlTypes = [1] := rfl
      rw [hty, hact, forEach_singleton]
      unfold visitSt
      rw [visit_call_nil _ _ _ _ _ _ _ rfl,
        anotherFileSearch_some pingPass _ _ _ _ 305 ⟨201, 400, [pongDecl]⟩ rfl rfl]
      have hds : funcDeclsOf ⟨201, 400, [pongDecl]⟩ = [pongDecl] := rfl
      rw [hds, forEach_singleton, (ping_pong_diverge n _ _ (by rfl) (by rfl)).1]
  refine ⟨hloop, ?_⟩
  intro fuel
  have hl : loops pingPass = [pingLoop] := rfl
  have hp : prepareTypes pingPass (State.fresh (State.fresh []).sqlTypes) = State.fresh [1] := rfl
  unfold run
  rw [hp, hl]
  simp only [forEach_singleton, hloop]
  rfl

/-! ## Cross-file hit (C6) -/

/-- C6, as stated, fails: in `purgePass` the loop calls `fetch`, declared in
another file of the package beside an unrelated `purge` that also uses `db`.
`findQuery(loop, nil)` from empty memo stores emits two reports at the call
expression (120), one for each function declaration of that file. -/
theorem C6_every_declaration_of_the_file_reports :
    reportsOf (findQuery purgePass 2 purgeLoop none (State.fresh [1])) = some [120, 120] ∧
    ¬ ∃ fuel st1, findQuery purgePass fuel purgeLoop none (State.fresh [1]) = .ok st1 ∧
        st1.reports = [120] := by
  have h : reportsOf (findQuery purgePass 2 purgeLoop none (State.fresh [1]))
      = some [120, 120] := by decide
  refine ⟨h, ?_⟩
  rintro ⟨fuel, st1, hq, hr⟩
  rw [reports_unique purgePass h hq] at hr
  exact absurd hr (by decide)

/-! ## The driver (C9) -/

theorem appendTypes_frame (P : Pass) (pkg name : String) (st : State) :
    (appendTypes P pkg name st).calls = st.calls ∧
    (appendTypes P pkg name st).walks = st.walks ∧
    (appendTypes P pkg name st).reports = st.reports := by
  unfold appendTypes
  cases P.typeOf pkg name <;> exact ⟨rfl, rfl, rfl⟩

theorem prepareTypes_frame (P : Pass) (st : State) :
    (prepareTypes P st).calls = st.calls ∧
    (prepareTypes P st).walks = st.walks ∧
    (prepareTypes P st).reports = st.reports := by
  unfold prepareTypes
  refine ⟨?_, ?_, ?_⟩
  · simp only [(appendTypes_frame P _ _ _).1]
  · simp only [(appendTypes_frame P _ _ _).2.1]
  · simp only [(appendTypes_frame P _ _ _).2.2]

/-- Calls made inside a walk always carry a report target. -/
theorem calls_closed (P : Pass) :
    StepClosed P (fun _ => True)
      (fun a b => ∃ rest, b.calls = a.calls ++ rest ∧ ∀ x, x ∈ rest → x.2.isSome = true) where
  decls := fun _ _ => trivial
  refl := fun _ => ⟨[], by simp, by simp⟩
  trans := by
    rintro a b c ⟨r1, h1, g1⟩ ⟨r2, h2, g2⟩
    refine ⟨r1 ++ r2, by rw [h2, h1, List.append_assoc], ?_⟩
    intro x hx
    rcases List.mem_append.mp hx with h | h
    · exact g1 x h
    · exact g2 x h
  enter := fun st root p _ => ⟨[(root.pos, some p.pos)], rfl, by simp⟩
  walk := fun _ _ _ _ => ⟨[], by simp, by simp⟩
  cached := fun _ _ _ _ _ => ⟨[], by simp [State.report], by simp⟩
  hit := fun _ _ _ _ _ _ _ => ⟨[], by simp [State.report], by simp⟩
  start := fun _ _ _ _ => ⟨[], by simp, by simp⟩
  again := fun _ _ _ _ _ _ => ⟨[], by simp [State.report], by simp⟩

theorem forEach_loops_calls (P : Pass) (fuel : Nat) :
    ∀ (ls : List Node) (st st1 : State),
      forEach (fun n s => findQuery P fuel n none s) ls st = .ok st1 →
      st1.calls.filter (fun c => c.2.isNone) =
        st.calls.filter (fun c => c.2.isNone) ++ ls.map (fun l => (l.pos, none)) := by
  intro ls
  induction ls with
  | nil =>
    intro st st1 h
    simp only [forEach, Except.ok.injEq] at h
    simp [h]
  | cons l ls ih =>
    intro st st1 h
    simp only [forEach] at h
    cases hl : findQuery P fuel l none st with
    | error e => rw [hl] at h; simp at h
    | ok s1 =>
      rw [hl] at h
      obtain ⟨rest, hc, hrest⟩ := findQuery_closed_root (calls_closed P) fuel l st s1 trivial hl
      rw [ih s1 st1 h, hc]
      have hr : rest.filter (fun c => c.2.isNone) = [] := by
        rw [List.filter_eq_nil_iff]
        intro x hx
        simp [hrest x hx, Option.isNone_iff_eq_none, Option.isSome_iff_ne_none.mp (hrest x hx)]
      simp [List.filter_append, hr]

/-- The two cases of `run`. If the registry is empty after `prepareTypes`,
`run` returns without a single call of `findQuery`, walk or report. If it is
not empty, `run` is the for/range statements of the package handed to
`findQuery` one after another, each without report target; and if `run`
returns, the calls of `findQuery` without report target are, in order, one for
each for/range statement of the package. -/
theorem run_registry_cases (P : Pass) (fuel : Nat) (g : State) :
    ((prepareTypes P (State.fresh g.sqlTypes)).sqlTypes = [] →
      ∃ st, run P fuel g = .ok st ∧ st.calls = [] ∧ st.walks = [] ∧ st.reports = []) ∧
    ((prepareTypes P (State.fresh g.sqlTypes)).sqlTypes ≠ [] →
      run P fuel g = forEach (fun n s => findQuery P fuel n none s) (loops P)
        (prepareTypes P (State.fresh g.sqlTypes)) ∧
      ∀ st, run P fuel g = .ok st →
        st.calls.filter (fun c => c.2.isNone) = (loops P).map (fun l => (l.pos, none))) := by
  obtain ⟨hc, hw, hr⟩ := prepareTypes_frame P (State.fresh g.sqlTypes)
  constructor
  · intro he
    refine ⟨prepareTypes P (State.fresh g.sqlTypes), ?_, by rw [hc]; rfl, by rw [hw]; rfl,
      by rw [hr]; rfl⟩
    unfold run
    simp [he]
  · intro hne
    have hrun : run P fuel g = forEach (fun n s => findQuery P fuel n none s) (loops P)
        (prepareTypes P (State.fresh g.sqlTypes)) := by
      unfold run
      simp only [List.isEmpty_iff, hne, if_false]
    refine ⟨hrun, ?_⟩
    intro st h
    rw [hrun] at h
    rw [forEach_loops_calls P fuel _ _ _ h, hc]
    rfl

/-! ## No hit (C3) -/

theorem pending_le (P : Pass) (st : State) : pending P st ≤ (allFuncDecls P).length := by
  unfold pending
  exact (List.length_filter_le _ _).trans (by simp)

theorem pending_mono (P : Pass) (st st1 : State)
    (h : ∀ k, st.searchCache.get k = true → st1.searchCache.get k = true) :
    pending P st1 ≤ pending P st := by
  unfold pending
  apply List.Sublist.length_le
  apply List.monotone_filter_right
  intro k hk
  simp only [Bool.not_eq_true', Bool.decide_eq_false] at hk ⊢
  cases hs : st.searchCache.get k with
  | false => rfl
  | true => rw [h k hs] at hk; exact absurd hk (by decide)

theorem pending_start (P : Pass) (st : State) (d : Node) (hd : d ∈ allFuncDecls P)
    (hs : st.searchCache.get d.pos = false) :
    pending P { st with searchCache := st.searchCache.set d.pos true } < pending P st := by
  unfold pending
  have hfilter : ((allFuncDecls P).map Node.pos).filter
        (fun k => !(st.searchCache.set d.pos true).get k)
      = (((allFuncDecls P).map Node.pos).filter (fun k => !st.searchCache.get k)).filter
        (fun k => decide (k ≠ d.pos)) := by
    rw [List.filter_filter]
    apply List.filter_congr
    intro k _
    by_cases hk : k = d.pos
    · subst hk
      simp [Memo.get_set_self]
    · simp [Memo.get_set_ne _ _ hk, hk]
  rw [hfilter]
  apply List.length_filter_lt_length_iff_exists.mpr
  refine ⟨d.pos, ?_, by simp⟩
  exact List.mem_filter.mpr ⟨List.mem_map_of_mem _ hd, by simp [hs]⟩

theorem Silent.refl (st : State) : Silent st st := ⟨rfl, rfl, rfl, fun _ h => h⟩

theorem Silent.trans {a b c : State} (h1 : Silent a b) (h2 : Silent b c) : Silent a c :=
  ⟨h2.1.trans h1.1, h2.2.1.trans h1.2.1, h2.2.2.1.trans h1.2.2.1,
    fun k hk => h2.2.2.2 k (h1.2.2.2 k hk)⟩

theorem quiet_visit {P : Pass} {S : List Ty} {C : Node → Prop} (hQ : Quiet P S C)
    (fuel : Nat)
    (ih : ∀ (root : Node) (parent : Option Node) (st : State), C root → st.sqlTypes = S →
      (∀ d, C d → st.funcCache.get d.pos = false) → pending P st < fuel →
      ∃ st1, findQuery P fuel root parent st = .ok st1 ∧ Silent st st1)
    (root : Node) (parent : Option Node) (hroot : C root) (m : Node) (hm : m ∈ walked root)
    (st : State) (hS : st.sqlTypes = S)
    (hfc : ∀ d, C d → st.funcCache.get d.pos = false) (hp : pending P st < fuel + 1) :
    ∃ st1, visitSt P (findQuery P fuel) root parent m st = .ok st1 ∧ Silent st st1 := by
  have hq : isQueryIdent st.sqlTypes m = false := by rw [hS]; exact hQ.noHit root hroot m hm
  have inert : isLiveCall P m = false →
      ∃ st1, visitSt P (findQuery P fuel) root parent m st = .ok st1 ∧ Silent st st1 :=
    fun hl => ⟨st, visitSt_inert P _ root parent m st hq hl, Silent.refl st⟩
  cases m with
  | ident id => exact inert rfl
  | node k p cs => exact inert rfl
  | call fn args =>
    cases fn with
    | call f2 a2 => exact inert rfl
    | node k p cs => exact inert rfl
    | ident funcExpr =>
      cases hobj : funcExpr.obj with
      | other => exact inert (by simp [isLiveCall, hobj])
      | nil => exact inert (hQ.deadEnd root hroot _ hm (by simp [prunes, hobj]))
      | funcDecl k =>
        cases hd : declAt P k with
        | none => exact inert (by simp [isLiveCall, hobj, hd])
        | some e =>
          have hCe : C e := hQ.closed root hroot e ⟨funcExpr, args, k, hm, hobj, hd⟩
          have hmem := (declAt_mem hd).1
          unfold visitSt
          cases hs : st.searchCache.get e.pos with
          | true =>
            rw [visit_call_again P _ root parent st funcExpr args k e hobj hd hs]
            simp only [hfc e hCe, Bool.false_eq_true, if_false]
            exact ⟨st, rfl, Silent.refl st⟩
          | false =>
            rw [visit_call_first P _ root parent st funcExpr args k e hobj hd hs]
            have hlt := pending_start P st e hmem hs
            obtain ⟨s1, h1, hsil⟩ := ih e (some (.call (.ident funcExpr) args))
              { st with searchCache := st.searchCache.set e.pos true } hCe hS hfc (by omega)
            rw [h1]
            refine ⟨s1, rfl, hsil.1, hsil.2.1, hsil.2.2.1, ?_⟩
            intro x hx
            apply hsil.2.2.2
            by_cases hxe : x = e.pos
            · subst hxe; exact Memo.get_set_self _ _ _
            · simpa [Memo.get_set_ne _ _ hxe] using hx

theorem quiet_forEach {P : Pass} {S : List Ty} {C : Node → Prop} (hQ : Quiet P S C)
    (fuel : Nat)
    (ih : ∀ (root : Node) (parent : Option Node) (st : State), C root → st.sqlTypes = S →
      (∀ d, C d → st.funcCache.get d.pos = false) → pending P st < fuel →
      ∃ st1, findQuery P fuel root parent st = .ok st1 ∧ Silent st st1)
    (root : Node) (parent : Option Node) (hroot : C root) :
    ∀ (l : List Node), (∀ m, m ∈ l → m ∈ walked root) → ∀ (st : State), st.sqlTypes = S →
      (∀ d, C d → st.funcCache.get d.pos = false) → pending P st < fuel + 1 →
      ∃ st1, forEach (visitSt P (findQuery P fuel) root parent) l st = .ok st1 ∧
        Silent st st1 := by
  intro l
  induction l with
  | nil => intro _ st _ _ _; exact ⟨st, rfl, Silent.refl st⟩
  | cons m ms ihl =>
    intro hl st hS hfc hp
    obtain ⟨s1, h1, hs1⟩ := quiet_visit hQ fuel ih root parent hroot m
      (hl m (List.mem_cons_self _ _)) st hS hfc hp
    have hp1 : pending P s1 < fuel + 1 :=
      Nat.lt_of_le_of_lt (pending_mono P st s1 hs1.2.2.2) hp
    obtain ⟨s2, h2, hs2⟩ := ihl (fun x hx => hl x (List.mem_cons_of_mem _ hx)) s1
      (hs1.2.2.1.trans hS) (fun d hd => by rw [hs1.2.1]; exact hfc d hd) hp1
    refine ⟨s2, ?_, hs1.trans hs2⟩
    simp only [forEach, h1]
    exact h2

/-- Inside a quiet set of roots, with no true verdict stored for any of them,
`findQuery` returns once its fuel exceeds the number of pending declarations,
and it is silent. -/
theorem quiet_findQuery {P : Pass} {S : List Ty} {C : Node → Prop} (hQ : Quiet P S C) :
    ∀ (fuel : Nat) (root : Node) (parent : Option Node) (st : State), C root →
      st.sqlTypes = S → (∀ d, C d → st.funcCache.get d.pos = false) →
      pending P st < fuel →
      ∃ st1, findQuery P fuel root parent st = .ok st1 ∧ Silent st st1 := by
  intro fuel
  induction fuel with
  | zero => intro _ _ _ _ _ _ h; exact absurd h (Nat.not_lt_zero _)
  | succ fuel ih =>
    intro root parent st hroot hS hfc hp
    rw [findQuery_succ]
    by_cases he : st.funcCache.Exists root.pos = true
    · simp only [he, if_true, hfc root hroot, Bool.false_eq_true, if_false]
      exact ⟨_, rfl, rfl, rfl, rfl, fun _ h => h⟩
    · simp only [he, Bool.false_eq_true, if_false]
      obtain ⟨s1, h1, hs1⟩ := quiet_forEach hQ fuel ih root parent hroot (walked root)
        (fun _ h => h)
        { st with calls := st.calls ++ [(root.pos, parent.map Node.pos)],
                  walks := st.walks ++ [root.pos] }
        hS hfc hp
      exact ⟨s1, h1, hs1⟩

theorem VerdictsSound.congr {P : Pass} {st st1 : State}
    (hf : st1.funcCache = st.funcCache) (hs : st1.sqlTypes = st.sqlTypes)
    (h : VerdictsSound P st) : VerdictsSound P st1 := by
  intro k hk
  rw [hf] at hk
  rw [hs]
  exact h k hk

/-- True verdicts stay sound across every step. -/
theorem verdicts_closed (P : Pass) :
    StepClosed P (IsRoot P)
      (fun a b => b.sqlTypes = a.sqlTypes ∧ (VerdictsSound P a → VerdictsSound P b)) where
  decls := fun _ h => Or.inr h
  refl := fun _ => ⟨rfl, fun h => h⟩
  trans := fun _ _ _ h1 h2 => ⟨h2.1.trans h1.1, fun h => h2.2 (h1.2 h)⟩
  enter := fun _ _ _ _ => ⟨rfl, VerdictsSound.congr rfl rfl⟩
  walk := fun _ _ _ _ => ⟨rfl, VerdictsSound.congr rfl rfl⟩
  cached := fun _ _ _ _ _ => ⟨rfl, VerdictsSound.congr rfl rfl⟩
  start := fun _ _ _ _ => ⟨rfl, VerdictsSound.congr rfl rfl⟩
  again := fun _ _ _ _ _ _ => ⟨rfl, VerdictsSound.congr rfl rfl⟩
  hit := by
    intro st root m p hroot hm hq
    refine ⟨rfl, ?_⟩
    intro h k hk
    by_cases hkr : k = root.pos
    · exact ⟨root, hroot, hkr.symm, m, hm, hq⟩
    · have hk1 : st.funcCache.get k = true := by
        simpa [State.report, Memo.get_set_ne _ _ hkr] using hk
      exact h k hk1

theorem reachable_sound {P : Pass} {st : State} (h : Reachable P st) : VerdictsSound P st := by
  induction h with
  | fresh S => intro k hk; simp [State.fresh, Memo.get_empty] at hk
  | step _ hloop hq ih =>
    exact (findQuery_closed_root (verdicts_closed P) _ _ _ _ (Or.inl hloop) hq).2
      (VerdictsSound.congr rfl rfl ih)

theorem reach_isRoot {P : Pass} {loop d : Node} (hloop : loop ∈ loops P)
    (h : Relation.ReflTransGen (CallsInFile P) loop d) : IsRoot P d := by
  induction h with
  | refl => exact Or.inl hloop
  | tail _ hstep _ =>
    obtain ⟨_, _, _, _, _, hd⟩ := hstep
    exact Or.inr (declAt_mem hd).1

/-- C3, amended: let the state be reachable during a run over a package whose
roots start at distinct positions, and let a loop of the package be such that
the walk of the whole loop statement (its header as well as its body), and of
the whole declaration (signature as well as body) of every function
transitively called from it by simple name in its file, meets no identifier of
registered type and no call that resolves into another file. Then
`findQuery(loop, nil)` returns (with fuel one more than the number of function
declarations, cycles in the call graph included) and emits zero reports; no
verdict is recorded. -/
theorem C3_no_hit_no_report (P : Pass) (loop : Node) (st : State)
    (hdist : DistinctPos P) (hreach : Reachable P st) (hloop : loop ∈ loops P)
    (hquiet : ∀ d, Relation.ReflTransGen (CallsInFile P) loop d →
      ∀ m, m ∈ walked d →
        isQueryIdent st.sqlTypes m = false ∧ (prunes m = true → isLiveCall P m = false)) :
    ∃ st1, findQuery P ((allFuncDecls P).length + 1) loop none st = .ok st1 ∧
      st1.reports = st.reports ∧ st1.funcCache = st.funcCache := by
  have hQ : Quiet P st.sqlTypes (Relation.ReflTransGen (CallsInFile P) loop) :=
    { noHit := fun d hd m hm => (hquiet d hd m hm).1
      deadEnd := fun d hd m hm => (hquiet d hd m hm).2
      closed := fun d hd e hde => Relation.ReflTransGen.tail hd hde }
  have hsound := reachable_sound hreach
  have hfc : ∀ d, Relation.ReflTransGen (CallsInFile P) loop d →
      st.funcCache.get d.pos = false := by
    intro d hd
    cases hg : st.funcCache.get d.pos with
    | false => rfl
    | true =>
      obtain ⟨r, hr, hpos, m, hm, hq⟩ := hsound d.pos hg
      have hrd : r = d := hdist r d hr (reach_isRoot hloop hd) hpos
      subst hrd
      rw [(hquiet r hd m hm).1] at hq
      exact absurd hq (by decide)
  obtain ⟨st1, h1, hs⟩ := quiet_findQuery hQ ((allFuncDecls P).length + 1) loop none st
    Relation.ReflTransGen.refl rfl hfc (Nat.lt_succ_of_le (pending_le P st))
  exact ⟨st1, h1, hs.1, hs.2.1⟩

theorem callsInFile_mem {P : Pass} {a b : Node} (h : CallsInFile P a b) :
    b ∈ calleesOf P a := by
  obtain ⟨funcExpr, args, k, hmem, hobj, hdecl⟩ := h
  exact List.mem_filterMap.mpr ⟨_, hmem, by simp [calleeOf, hobj, hdecl]⟩

theorem reach_subset {P : Pass} {loop : Node} (C : Node → Prop) (h0 : C loop)
    (hstep : ∀ d e, C d → CallsInFile P d e → C e) {d : Node}
    (h : Relation.ReflTransGen (CallsInFile P) loop d) : C d := by
  induction h with
  | refl => exact h0
  | tail _ hde ih => exact hstep _ _ ih hde

theorem quietRoot_spec {P : Pass} {S : List Ty} {root : Node} (h : quietRoot P S root = true)
    (m : Node) (hm : m ∈ walked root) :
    isQueryIdent S m = false ∧ (prunes m = true → isLiveCall P m = false) := by
  have := List.all_eq_true.mp h m hm
  simp only [Bool.and_eq_true, Bool.not_eq_true', Bool.or_eq_true] at this
  refine ⟨this.1, fun hp => ?_⟩
  rcases this.2 with h1 | h1
  · rw [hp] at h1; exact absurd h1 (by decide)
  · exact h1

theorem cyclePass_roots (d : Node) (h : IsRoot cyclePass d) :
    d = cycleLoop ∨ d = funcDecl 60 [cycleLoop] ∨ d = evenDecl ∨ d = oddDecl := by
  have hl : loops cyclePass = [cycleLoop] := rfl
  have hd : allFuncDecls cyclePass = [funcDecl 60 [cycleLoop], evenDecl, oddDecl] := rfl
  unfold IsRoot at h
  rw [hl, hd] at h
  simpa using h

theorem cyclePass_distinct : DistinctPos cyclePass := by
  intro a b ha hb hpos
  rcases cyclePass_roots a ha with rfl | rfl | rfl | rfl <;>
    rcases cyclePass_roots b hb with rfl | rfl | rfl | rfl <;>
    first
      | rfl
      | exact absurd hpos (by decide)

theorem cyclePass_reach (d : Node)
    (h : Relation.ReflTransGen (CallsInFile cyclePass) cycleLoop d) :
    d = cycleLoop ∨ d = evenDecl ∨ d = oddDecl := by
  refine reach_subset (fun x => x = cycleLoop ∨ x = evenDecl ∨ x = oddDecl) (Or.inl rfl) ?_ h
  intro a e ha hcall
  have hmem := callsInFile_mem hcall
  have h1 : calleesOf cyclePass cycleLoop = [evenDecl] := rfl
  have h2 : calleesOf cyclePass evenDecl = [oddDecl] := rfl
  have h3 : calleesOf cyclePass oddDecl = [evenDecl] := rfl
  rcases ha with rfl | rfl | rfl
  · rw [h1] at hmem; exact Or.inr (Or.inl (List.mem_singleton.mp hmem))
  · rw [h2] at hmem; exact Or.inr (Or.inr (List.mem_singleton.mp hmem))
  · rw [h3] at hmem; exact Or.inr (Or.inl (List.mem_singleton.mp hmem))

/-- C3, amended, at `cyclePass`: the loop calls `even`, which calls `odd`,
which calls `even`; nothing touches a query type, and the analysis of the loop
from the fresh state returns without report. -/
theorem C3_no_hit_witness :
    quietRoot cyclePass [1] cycleLoop = true ∧ quietRoot cyclePass [1] evenDecl = true ∧
    quietRoot cyclePass [1] oddDecl = true ∧
    ∃ st1, findQuery cyclePass ((allFuncDecls cyclePass).length + 1) cycleLoop none
        (State.fresh [1]) = .ok st1 ∧
      st1.reports = (State.fresh [1]).reports ∧
      st1.funcCache = (State.fresh [1]).funcCache :=
  ⟨by decide, by decide, by decide,
    C3_no_hit_no_report cyclePass cycleLoop (State.fresh [1]) cyclePass_distinct
      (Reachable.fresh [1]) (by rw [show loops cyclePass = [cycleLoop] from rfl]; simp)
      (by
        intro d hd
        rcases cyclePass_reach d hd with rfl | rfl | rfl
        · exact quietRoot_spec (by decide)
        · exact quietRoot_spec (by decide)
        · exact quietRoot_spec (by decide))⟩

/-! ## The verdict memo (C11) -/

/-- C11: the verdict memo is a last-writer-wins map with default false. On the
store made by `NewFuncCache` both `Exists` and `Get` answer false at every key;
after `Set(k, v)` on any store `Exists(k)` is true and `Get(k)` is `v`; and
`Set(k, v)` changes neither `Exists` nor `Get` at any other key. -/
theorem C11_verdict_memo_laws (m : Memo) (k : Pos) (v : Bool) :
    (∀ x, Memo.empty.Exists x = false ∧ Memo.empty.get x = false) ∧
    (m.set k v).Exists k = true ∧ (m.set k v).get k = v ∧
    (∀ x, x ≠ k → (m.set k v).Exists x = m.Exists x ∧ (m.set k v).get x = m.get x) :=
  ⟨fun _ => ⟨rfl, rfl⟩, Memo.Exists_set_self m k v, Memo.get_set_self m k v,
    fun _ hx => ⟨Memo.Exists_set_ne m v hx, Memo.get_set_ne m v hx⟩⟩

/-- C11 on a store that already holds `true` at key 7: writing `false` there
wins, and key 8 is untouched. -/
theorem C11_verdict_memo_witness :
    ((Memo.empty.set 7 true).set 7 false).Exists 7 = true ∧
    ((Memo.empty.set 7 true).set 7 false).get 7 = false ∧
    ((Memo.empty.set 7 true).set 7 false).Exists 8 = (Memo.empty.set 7 true).Exists 8 ∧
    ((Memo.empty.set 7 true).set 7 false).get 8 = (Memo.empty.set 7 true).get 8 :=
  ⟨(C11_verdict_memo_laws (Memo.empty.set 7 true) 7 false).2.1,
    (C11_verdict_memo_laws (Memo.empty.set 7 true) 7 false).2.2.1,
    ((C11_verdict_memo_laws (Memo.empty.set 7 true) 7 false).2.2.2 8 (by decide)).1,
    ((C11_verdict_memo_laws (Memo.empty.set 7 true) 7 false).2.2.2 8 (by decide)).2⟩

/-! ## The registry (C12) -/

theorem appendTypes_eq (P : Pass) (pkg name : String) (st : State) :
    appendTypes P pkg name st =
      { st with sqlTypes := st.sqlTypes ++ (P.typeOf pkg name).toList } := by
  unfold appendTypes
  cases P.typeOf pkg name <;> simp

theorem filterMap_cons_toList {α β : Type} (f : α → Option β) (a : α) (l : List α) :
    List.filterMap f (a :: l) = (f a).toList ++ List.filterMap f l := by
  cases h : f a <;> simp [List.filterMap_cons, h]

theorem prepareTypes_eq (P : Pass) (st : State) :
    prepareTypes P st =
      { st with sqlTypes := st.sqlTypes ++ probes.filterMap (fun p => P.typeOf p.1 p.2) } := by
  unfold prepareTypes probes
  simp only [appendTypes_eq, filterMap_cons_toList, List.filterMap_nil, List.append_nil,
    List.append_assoc]

/-- C12: started with an empty registry, `prepareTypes` leaves in `sqlTypes`
exactly the types of the successful probes among the six fixed pairs, in probe
order, and changes nothing else; a probe that returns nothing leaves the whole
state as it was. -/
theorem C12_registry_is_successful_probes (P : Pass) (st : State) (h : st.sqlTypes = []) :
    (prepareTypes P st).sqlTypes = probes.filterMap (fun p => P.typeOf p.1 p.2) ∧
    prepareTypes P st = { st with sqlTypes := (prepareTypes P st).sqlTypes } ∧
    (∀ pkg name s, P.typeOf pkg name = none → appendTypes P pkg name s = s) := by
  refine ⟨?_, ?_, ?_⟩
  · rw [prepareTypes_eq, h]; rfl
  · rw [prepareTypes_eq]
  · intro pkg name s hn
    unfold appendTypes
    rw [hn]

/-- C12 at a package importing `database/sql` and `sqlx`: the registry is
`[1, 6]`, and the failed probe of `gorm` leaves the state as it was. -/
theorem C12_registry_witness :
    (prepareTypes ⟨[], sqlAndSqlx⟩ (State.fresh [])).sqlTypes = [1, 6] ∧
    sqlAndSqlx "gorm.io/gorm" "*DB" = none ∧
    appendTypes ⟨[], sqlAndSqlx⟩ "gorm.io/gorm" "*DB" (State.fresh [1]) = State.fresh [1] :=
  ⟨(C12_registry_is_successful_probes ⟨[], sqlAndSqlx⟩ (State.fresh []) rfl).1.trans
      (by decide),
    by decide,
    (C12_registry_is_successful_probes ⟨[], sqlAndSqlx⟩ (State.fresh []) rfl).2.2
      "gorm.io/gorm" "*DB" (State.fresh [1]) (by decide)⟩

/-! ## The registry outlives the run (C13) -/

/-- C13: `remotePass` imports none of the six libraries but uses a value of
type `*gorm.DB` (type 2) in a loop. Entered with an empty registry, `run`
does nothing and emits no report; entered with the registry an earlier run on
a package importing `gorm` left behind (`[2]`), it reports at 120. The two memo
stores do not matter: runs entered with the same registry agree. -/
theorem C13_registry_leaks_between_runs :
    reportsOf (run remotePass 2 (State.fresh [])) = some [] ∧
    reportsOf (run remotePass 2 (State.fresh [2])) = some [120] ∧
    (∀ f1 f2 s1 s2, run remotePass f1 (State.fresh []) = .ok s1 →
      run remotePass f2 (State.fresh [2]) = .ok s2 → s1.reports ≠ s2.reports) ∧
    (∀ (P : Pass) (fuel : Nat) (g h : State), g.sqlTypes = h.sqlTypes →
      run P fuel g = run P fuel h) := by
  have h1 : reportsOf (run remotePass 2 (State.fresh [])) = some [] := by decide
  have h2 : reportsOf (run remotePass 2 (State.fresh [2])) = some [120] := by decide
  refine ⟨h1, h2, ?_, ?_⟩
  · intro f1 f2 s1 s2 hs1 hs2
    obtain ⟨a, ha, hra⟩ := reportsOf_eq_some h1
    obtain ⟨b, hb, hrb⟩ := reportsOf_eq_some h2
    rw [run_fuel_unique remotePass hs1 ha, run_fuel_unique remotePass hs2 hb, hra, hrb]
    decide
  · intro P fuel g h hgh
    unfold run
    rw [hgh]

/-! ## No short-circuit after a hit (C14) -/

/-- C14: in `twicePass` the function `sync` holds two identifiers of
registered type (`db` at 330 and at 360). One walk of its declaration, entered
from the call at 120, emits two reports through the identifier rule, both at
120; the walk went on after the first hit. -/
theorem C14_walk_goes_on_after_first_hit :
    declAt twicePass 300 = some syncDecl ∧
    walksOf (findQuery twicePass 1 syncDecl (some twiceCall) (State.fresh [1])) = some [300] ∧
    reportsOf (findQuery twicePass 1 syncDecl (some twiceCall) (State.fresh [1]))
      = some [120, 120] ∧
    walksOf (findQuery twicePass 2 twiceLoop none (State.fresh [1])) = some [90, 300] ∧
    reportsOf (findQuery twicePass 2 twiceLoop none (State.fresh [1])) = some [120, 120] ∧
    (∀ fuel st1, findQuery twicePass fuel syncDecl (some twiceCall) (State.fresh [1]) = .ok st1 →
      st1.reports = [120, 120]) := by
  have h : reportsOf (findQuery twicePass 1 syncDecl (some twiceCall) (State.fresh [1]))
      = some [120, 120] := by decide
  refine ⟨rfl, by decide, h, by decide, by decide, ?_⟩
  intro fuel st1 hq
  exact reports_unique twicePass h hq

/-! ## Arguments of an unresolved call are not walked (C15) -/

/-- C15: in `argPass` the subtree of the loop holds an identifier of
registered type (`db` at 140), inside the arguments of the call of the
built-in `append`. The walk of the loop stops at that call (127) and never
visits 140; `findQuery(loop, nil)` from empty memo stores emits no report. -/
theorem C15_identifier_in_arguments_is_missed :
    ((subtree argLoop).filter (isQueryIdent [1])).map Node.pos = [140] ∧
    (walked argLoop).map Node.pos = [90, 94, 97, 108, 112, 120, 120, 127] ∧
    reportsOf (findQuery argPass 1 argLoop none (State.fresh [1])) = some [] ∧
    (∀ fuel st1, findQuery argPass fuel argLoop none (State.fresh [1]) = .ok st1 →
      st1.reports = []) ∧
    reportsOf (run argPass 2 (State.fresh [])) = some [] := by
  have h : reportsOf (findQuery argPass 1 argLoop none (State.fresh [1])) = some [] := by
    decide
  refine ⟨by decide, by decide, h, ?_, by decide⟩
  intro fuel st1 hq
  exact reports_unique argPass h hq

/-! ## Reports of a loop without calls (C18) -/

theorem isLiveCall_of_not_call (P : Pass) (m : Node) (h : isCall m = false) :
    isLiveCall P m = false := by
  cases m with
  | ident id => rfl
  | node k p cs => rfl
  | call fn args => simp [isCall] at h

mutual
theorem walked_eq_subtree :
    ∀ (n : Node), (∀ m, m ∈ subtree n → isCall m = false) → walked n = subtree n
  | .ident id, _ => by simp [walked, subtree]
  | .node k p cs, h => by
    simp only [walked, subtree]
    rw [walkedList_eq_subtreeList cs (fun m hm => h m (by simp [subtree, hm]))]
  | .call fn args, h => by
    have := h (.call fn args) (by simp [subtree])
    simp [isCall] at this
theorem walkedList_eq_subtreeList :
    ∀ (ns : List Node), (∀ m, m ∈ subtreeList ns → isCall m = false) →
      walkedList ns = subtreeList ns
  | [], _ => by simp [walkedList, subtreeList]
  | n :: ns, h => by
    simp only [walkedList, subtreeList]
    rw [walked_eq_subtree n (fun m hm => h m (by simp [subtreeList, hm])),
      walkedList_eq_subtreeList ns (fun m hm => h m (by simp [subtreeList, hm]))]
end

theorem forEach_no_call (P : Pass) (recur : Node → Option Node → State → Except Fault State)
    (root : Node) (l : List Node) (hl : ∀ m, m ∈ l → isCall m = false) :
    ∀ st : State, ∃ st1, forEach (visitSt P recur root none) l st = .ok st1 ∧
      st1.reports = st.reports ++ (l.filter (isQueryIdent st.sqlTypes)).map Node.pos ∧
      st1.sqlTypes = st.sqlTypes := by
  induction l with
  | nil => intro st; exact ⟨st, rfl, by simp, rfl⟩
  | cons m ms ih =>
    intro st
    have ihm := ih (fun x hx => hl x (List.mem_cons_of_mem _ hx))
    simp only [forEach]
    by_cases hq : isQueryIdent st.sqlTypes m = true
    · rw [visitSt_hit P recur root none m st hq]
      obtain ⟨st1, h1, hr, hs⟩ := ihm
        { st.report ((none : Option Node).getD m).pos with
          funcCache := st.funcCache.set root.pos true }
      refine ⟨st1, h1, ?_, hs⟩
      rw [hr, List.filter_cons_of_pos hq]
      simp [State.report]
    · simp only [Bool.not_eq_true] at hq
      rw [visitSt_inert P recur root none m st hq
        (isLiveCall_of_not_call P m (hl m (List.mem_cons_self _ _)))]
      obtain ⟨st1, h1, hr, hs⟩ := ihm st
      refine ⟨st1, h1, ?_, hs⟩
      rw [hr, List.filter_cons_of_neg (by simp [hq])]

/-- C18: for a root without report target whose subtree holds no call
expression, `findQuery` started with an empty verdict memo returns having
emitted exactly one report for each identifier of registered type in the
subtree, positioned at that identifier, in depth-first source order, and
nothing else. -/
theorem C18_loop_reports_each_identifier (P : Pass) (loop : Node) (st : State)
    (hfc : st.funcCache = Memo.empty)
    (hno : ∀ m, m ∈ subtree loop → isCall m = false) :
    ∃ st1, findQuery P 1 loop none st = .ok st1 ∧
      st1.reports =
        st.reports ++ ((subtree loop).filter (isQueryIdent st.sqlTypes)).map Node.pos := by
  have he : st.funcCache.Exists loop.pos = false := by rw [hfc]; rfl
  rw [findQuery_succ]
  simp only [he, Bool.false_eq_true, if_false]
  rw [walked_eq_subtree loop hno]
  obtain ⟨st1, h1, hr, _⟩ := forEach_no_call P (findQuery P 0) loop (subtree loop) hno
    { st with calls := st.calls ++ [(loop.pos, Option.map Node.pos none)],
              walks := st.walks ++ [loop.pos] }
  exact ⟨st1, h1, hr⟩

/-- C18 at `fieldLoop`: three uses of `*sql.DB` values, reported at 129, 140
and 147 in that order. -/
theorem C18_loop_reports_witness :
    (subtree fieldLoop).all (fun m => !isCall m) = true ∧
    ∃ st1, findQuery directPass 1 fieldLoop none (State.fresh [1]) = .ok st1 ∧
      st1.reports = [129, 140, 147] := by
  refine ⟨by decide, ?_⟩
  obtain ⟨st1, h1, hr⟩ := C18_loop_reports_each_identifier directPass fieldLoop
    (State.fresh [1]) rfl
    (fun m hm => by
      have := List.all_eq_true.mp
        (by decide : (subtree fieldLoop).all (fun m => !isCall m) = true) m hm
      simpa using this)
  exact ⟨st1, h1, by rw [hr]; decide⟩

/-! ## Only true is ever stored (C20) -/

theorem OnlyTrue.empty : OnlyTrue Memo.empty := by
  intro k v h
  simp [Memo.empty] at h

theorem OnlyTrue.set {m : Memo} (h : OnlyTrue m) (k : Pos) : OnlyTrue (m.set k true) := by
  intro x v hx
  unfold Memo.set at hx
  by_cases hxk : x = k
  · simp only [hxk, if_true, Option.some.injEq] at hx
    exact hx.symm
  · simp only [hxk, if_false] at hx
    exact h x v hx

theorem OnlyTrue.exists_iff_get {m : Memo} (h : OnlyTrue m) (k : Pos) :
    m.Exists k = true ↔ m.get k = true := by
  unfold Memo.Exists Memo.get
  cases hk : m k with
  | none => simp
  | some v => simp [h k v hk]

/-- Every step stores `true` only. -/
theorem onlyTrue_closed (P : Pass) :
    StepClosed P (fun _ => True)
      (fun a b => OnlyTrue a.funcCache ∧ OnlyTrue a.searchCache →
        OnlyTrue b.funcCache ∧ OnlyTrue b.searchCache) where
  decls := fun _ _ => trivial
  refl := fun _ h => h
  trans := fun _ _ _ h1 h2 h => h2 (h1 h)
  enter := fun _ _ _ _ h => h
  walk := fun _ _ _ _ h => h
  cached := fun _ _ _ _ _ h => h
  hit := fun _ root _ _ _ _ _ h => ⟨h.1.set root.pos, h.2⟩
  start := fun _ decl _ _ h => ⟨h.1, h.2.set decl.pos⟩
  again := fun _ _ _ _ _ _ h => h

theorem during_onlyTrue {P : Pass} {st : State} (h : During P st) :
    OnlyTrue st.funcCache ∧ OnlyTrue st.searchCache := by
  induction h with
  | fresh S => exact ⟨OnlyTrue.empty, OnlyTrue.empty⟩
  | enter root parent _ ih => exact ih
  | start decl _ ih => exact ⟨ih.1, ih.2.set decl.pos⟩
  | visit _ hm hv ih =>
    exact visitSt_closed (onlyTrue_closed P) _
      (fun d p s s1 hd hq => findQuery_closed (onlyTrue_closed P) _ d p s s1 hd hq)
      _ _ trivial _ hm _ _ hv ih
  | @find st st1 fuel root parent _ hq ih =>
    cases parent with
    | none => exact findQuery_closed_root (onlyTrue_closed P) fuel root st st1 trivial hq ih
    | some p => exact findQuery_closed (onlyTrue_closed P) fuel root p st st1 trivial hq ih

theorem reachable_during {P : Pass} {st : State} (h : Reachable P st) : During P st := by
  induction h with
  | fresh S => exact During.fresh S
  | step _ _ hq ih => exact During.find ih hq

/-- C20: in every state a run started from fresh stores passes through
(between two loops or in the middle of a walk), every entry of `funcCache` and
of `searchCache` holds `true`; so `funcCache.Exists(k)` holds exactly when
`funcCache.Get(k)` is true, and no key holds the verdict false. -/
theorem C20_only_true_is_stored (P : Pass) (st : State)
    (h : Reachable P st ∨ During P st) :
    OnlyTrue st.funcCache ∧ OnlyTrue st.searchCache ∧
    (∀ k, st.funcCache.Exists k = true ↔ st.funcCache.get k = true) ∧
    (∀ k, st.funcCache k ≠ some false) := by
  have hd : During P st := h.elim reachable_during id
  obtain ⟨hf, hs⟩ := during_onlyTrue hd
  refine ⟨hf, hs, fun k => hf.exists_iff_get k, ?_⟩
  intro k hk
  exact absurd (hf k false hk) (by decide)

/-- C20 at the state left by the analysis of `directLoop`: the verdict memo
holds an entry at 90, and it is `true`. -/
theorem C20_only_true_witness :
    ∃ st, findQuery directPass 1 directLoop none (State.fresh [1]) = .ok st ∧
      st.funcCache.Exists 90 = true ∧ st.funcCache.get 90 = true ∧
      OnlyTrue st.funcCache ∧ OnlyTrue st.searchCache ∧
      (∀ k, st.funcCache.Exists k = true ↔ st.funcCache.get k = true) ∧
      (∀ k, st.funcCache k ≠ some false) := by
  obtain ⟨st, hst, _⟩ := reportsOf_eq_some
    (by decide : reportsOf (findQuery directPass 1 directLoop none (State.fresh [1]))
      = some [120])
  have hl : directLoop ∈ loops directPass := by
    rw [show loops directPass = [directLoop] from rfl]; simp
  have hc := C20_only_true_is_stored directPass st
    (Or.inl (Reachable.step (Reachable.fresh [1]) hl hst))
  have he : st.funcCache.Exists 90 = true := by
    have h2 : findQuery directPass 1 directLoop none (State.fresh [1]) = .ok st := hst
    rw [findQuery_walk directPass 0 directLoop none (State.fresh [1]) rfl] at h2
    have ha : active directPass (State.fresh [1]).sqlTypes directLoop
        = [.ident ⟨120, some 1, .other, some 40⟩] := rfl
    rw [ha, forEach_singleton, visitSt_hit _ _ _ _ _ _ (by rfl)] at h2
    rw [← Except.ok.inj h2]
    rfl
  exact ⟨st, hst, he, (hc.2.2.1 90).mp he, hc⟩

/-! ## No report at an absent target (C19) -/

theorem forEach_error {f : Node → State → Except Fault State} {l : List Node} :
    ∀ {st : State} {e : Fault}, forEach f l st = .error e →
      ∃ m, m ∈ l ∧ ∃ s, f m s = .error e := by
  induction l with
  | nil => intro st e h; simp [forEach] at h
  | cons n ns ih =>
    intro st e h
    simp only [forEach] at h
    cases hn : f n st with
    | error e1 =>
      rw [hn] at h
      simp only [Except.error.injEq] at h
      exact ⟨n, List.mem_cons_self _ _, st, h ▸ hn⟩
    | ok s1 =>
      rw [hn] at h
      obtain ⟨m, hm, s, hs⟩ := ih h
      exact ⟨m, List.mem_cons_of_mem _ hm, s, hs⟩

/-- The visitor fails only where a nested call of `findQuery` fails, and such
a call always has a report target. -/
theorem visitSt_error (P : Pass) (recur : Node → Option Node → State → Except Fault State)
    (root : Node) (parent : Option Node) (m : Node) (st : State) (e : Fault)
    (h : visitSt P recur root parent m st = .error e) :
    ∃ d p s, recur d (some p) s = .error e := by
  unfold visitSt at h
  cases m with
  | ident id =>
    rw [visit_ident] at h
    by_cases hq : isQueryIdent st.sqlTypes (.ident id) = true <;> simp [hq] at h
  | node k p cs => rw [visit_node] at h; simp at h
  | call fn args =>
    cases fn with
    | call f2 a2 => rw [visit_call_call] at h; simp at h
    | node k p cs => rw [visit_call_node] at h; simp at h
    | ident funcExpr =>
      cases hobj : funcExpr.obj with
      | other => rw [visit_call_other _ _ _ _ _ _ _ hobj] at h; simp at h
      | nil =>
        rw [visit_call_nil _ _ _ _ _ _ _ hobj] at h
        cases hb : funcExpr.objectOf.bind (fileOf P) with
        | none => rw [anotherFileSearch_none _ _ _ _ _ hb] at h; simp at h
        | some file =>
          obtain ⟨p, ho, hf⟩ := Option.bind_eq_some.mp hb
          rw [anotherFileSearch_some _ _ _ _ _ _ _ ho hf] at h
          cases hr : forEach (fun n s => recur n (some (Node.call (.ident funcExpr) args)) s)
              (funcDeclsOf file) st with
          | ok s2 => rw [hr] at h; simp at h
          | error e1 =>
            rw [hr] at h
            simp only [Except.error.injEq] at h
            obtain ⟨d, _, s, hs⟩ := forEach_error hr
            exact ⟨d, _, s, h ▸ hs⟩
      | funcDecl k =>
        cases hd : declAt P k with
        | none => rw [visit_call_dangling _ _ _ _ _ _ _ _ hobj hd] at h; simp at h
        | some decl =>
          cases hs : st.searchCache.get decl.pos with
          | true =>
            rw [visit_call_again _ _ _ _ _ _ _ _ _ hobj hd hs] at h
            by_cases hg : st.funcCache.get decl.pos = true <;> simp [hg] at h
          | false =>
            rw [visit_call_first _ _ _ _ _ _ _ _ _ hobj hd hs] at h
            cases hr : recur decl (some (Node.call (.ident funcExpr) args))
                { st with searchCache := st.searchCache.set decl.pos true } with
            | ok s2 => rw [hr] at h; simp at h
            | error e1 =>
              rw [hr] at h
              simp only [Except.error.injEq] at h
              exact ⟨decl, _, _, h ▸ hr⟩

/-- A call of `findQuery` with a report target never dereferences nil. -/
theorem findQuery_some_no_nil (P : Pass) :
    ∀ (fuel : Nat) (root p : Node) (st : State),
      findQuery P fuel root (some p) st ≠ .error .nilDeref := by
  intro fuel
  induction fuel with
  | zero => intro root p st h; simp [findQuery_zero] at h
  | succ fuel ih =>
    intro root p st h
    rw [findQuery_succ] at h
    by_cases he : st.funcCache.Exists root.pos = true
    · by_cases hg : st.funcCache.get root.pos = true
      · simp [he, hg] at h
      · simp [he, hg] at h
    · simp only [he, Bool.false_eq_true, if_false] at h
      obtain ⟨m, _, s, hs⟩ := forEach_error h
      obtain ⟨d, q, s1, hd⟩ := visitSt_error P _ root _ m s _ hs
      exact ih d q s1 hd

/-- A call of `findQuery` without report target dereferences nil only when the
verdict memo already holds a true verdict for its root. -/
theorem findQuery_nil_at_root (P : Pass) (fuel : Nat) (root : Node) (st : State)
    (h : findQuery P fuel root none st = .error .nilDeref) :
    st.funcCache.get root.pos = true := by
  cases fuel with
  | zero => simp [findQuery_zero] at h
  | succ fuel =>
    rw [findQuery_succ] at h
    by_cases he : st.funcCache.Exists root.pos = true
    · by_cases hg : st.funcCache.get root.pos = true
      · exact hg
      · simp [he, hg] at h
    · simp only [he, Bool.false_eq_true, if_false] at h
      obtain ⟨m, _, s, hs⟩ := forEach_error h
      obtain ⟨d, q, s1, hd⟩ := visitSt_error P _ root _ m s _ hs
      exact absurd hd (findQuery_some_no_nil P fuel d q s1)

/-- True verdicts are only ever recorded at the position of the root under
analysis or of a function declaration. -/
theorem verdict_keys_closed (P : Pass) (loop : Node) :
    StepClosed P (fun r => r = loop ∨ r ∈ allFuncDecls P)
      (fun a b => ∀ k, b.funcCache.get k = true →
        a.funcCache.get k = true ∨ k = loop.pos ∨ k ∈ (allFuncDecls P).map Node.pos) where
  decls := fun _ h => Or.inr h
  refl := fun _ _ h => Or.inl h
  trans := by
    intro a b c h1 h2 k hk
    rcases h2 k hk with h | h | h
    · exact h1 k h
    · exact Or.inr (Or.inl h)
    · exact Or.inr (Or.inr h)
  enter := fun _ _ _ _ _ h => Or.inl h
  walk := fun _ _ _ _ _ h => Or.inl h
  cached := fun _ _ _ _ _ _ h => Or.inl h
  start := fun _ _ _ _ _ h => Or.inl h
  again := fun _ _ _ _ _ _ _ h => Or.inl h
  hit := by
    intro st root m p hroot _ _ k hk
    by_cases hkr : k = root.pos
    · rcases hroot with h | h
      · exact Or.inr (Or.inl (by rw [hkr, h]))
      · exact Or.inr (Or.inr (hkr ▸ List.mem_map_of_mem _ h))
    · left
      simpa [State.report, Memo.get_set_ne _ _ hkr] using hk

theorem run_loops_no_nil (P : Pass) (fuel : Nat) :
    ∀ (rest done : List Node) (st : State),
      ((done ++ rest ++ allFuncDecls P).map Node.pos).Nodup →
      (∀ k, st.funcCache.get k = true → k ∈ (done ++ allFuncDecls P).map Node.pos) →
      forEach (fun n s => findQuery P fuel n none s) rest st ≠ .error .nilDeref := by
  intro rest
  induction rest with
  | nil => intro done st _ _ h; simp [forEach] at h
  | cons l ls ih =>
    intro done st hnd hinv h
    simp only [forEach] at h
    have hsplit : ((done ++ l :: ls ++ allFuncDecls P).map Node.pos)
        = done.map Node.pos ++ l.pos :: (ls ++ allFuncDecls P).map Node.pos := by
      simp
    cases hl : findQuery P fuel l none st with
    | error e =>
      rw [hl] at h
      simp only [Except.error.injEq] at h
      subst h
      have hg := findQuery_nil_at_root P fuel l st hl
      have hmem := hinv l.pos hg
      rw [hsplit] at hnd
      have hnot := List.nodup_append.mp hnd
      have hcons := List.nodup_cons.mp hnot.2.1
      rw [List.map_append] at hmem
      rcases List.mem_append.mp hmem with hm | hm
      · exact hnot.2.2 hm (List.mem_cons_self _ _) 
      · exact hcons.1 (by rw [List.map_append]; exact List.mem_append_right _ hm)
    | ok s1 =>
      rw [hl] at h
      have hstep := findQuery_closed_root (verdict_keys_closed P l) fuel l st s1 (Or.inl rfl) hl
      refine ih (done ++ [l]) s1 (by simpa using hnd) ?_ h
      intro k hk
      rcases hstep k hk with hk1 | hk1 | hk1
      · have := hinv k hk1
        simp only [List.map_append, List.mem_append] at this ⊢
        rcases this with t | t
        · exact Or.inl (Or.inl t)
        · exact Or.inr t
      · simp [hk1]
      · simp only [List.map_append, List.mem_append]
        exact Or.inr hk1

/-- C19: when the for/range statements and function declarations of the
package start at pairwise distinct positions, no amount of fuel makes `run`
stop on a nil report target: from the fresh memo stores, `findQuery` never
reaches the cached-verdict branch with a true verdict and no `parentNode`. -/
theorem C19_no_nil_report_target (P : Pass) (fuel : Nat) (g : State) (h : PosNodup P) :
    run P fuel g ≠ .error .nilDeref := by
  unfold run
  simp only
  split
  · simp
  · refine run_loops_no_nil P fuel (loops P) [] _ (by simpa [PosNodup] using h) ?_
    intro k hk
    rw [(prepareTypes_eq P (State.fresh g.sqlTypes))] at hk
    simp [State.fresh, Memo.get_empty] at hk

/-- C19 at `nestedPass`, a loop with a query and an inner loop with another:
the positions are distinct, the run returns, and both loops are analysed. -/
theorem C19_no_nil_witness :
    ((loops nestedPass ++ allFuncDecls nestedPass).map Node.pos) = [90, 150, 60] ∧
    run nestedPass 2 (State.fresh []) ≠ .error .nilDeref ∧
    reportsOf (run nestedPass 2 (State.fresh [])) = some [120, 180, 180] :=
  ⟨by decide,
    C19_no_nil_report_target nestedPass 2 (State.fresh []) (by unfold PosNodup; decide),
    by decide⟩

/-! ## The re-entrant edge (C16) -/

/-- C16: the code departs from it. In `cycleHitPass` the walk of `even` meets
`db.Query` (280), records the verdict of `even` and, instead of ending there
(line 177 only prunes the children of `db`), goes on to the call of `odd`
(310); the walk of `odd` meets the call back to `even` (380) while the walk of
`even` has not returned. The visited guard of `even` is set, so `even` is not
walked again, but its verdict is already true and the call rule reports at the
re-entrant call, 380. -/
theorem C16_reentrant_call_is_reported :
    (active cycleHitPass [1] (funcDecl 250 [queryStmt 280, callStmt 310 350])).map Node.pos
      = [280, 310] ∧
    callsOf (findQuery cycleHitPass 3 cycleHitLoop none (State.fresh [1]))
      = some [(90, none), (250, some 120), (350, some 310)] ∧
    walksOf (findQuery cycleHitPass 3 cycleHitLoop none (State.fresh [1]))
      = some [90, 250, 350] ∧
    reportsOf (findQuery cycleHitPass 3 cycleHitLoop none (State.fresh [1]))
      = some [120, 380] ∧
    ¬ ∃ fuel st1, findQuery cycleHitPass fuel cycleHitLoop none (State.fresh [1]) = .ok st1 ∧
        380 ∉ st1.reports := by
  have h : reportsOf (findQuery cycleHitPass 3 cycleHitLoop none (State.fresh [1]))
      = some [120, 380] := by decide
  refine ⟨by decide, by decide, by decide, h, ?_⟩
  rintro ⟨fuel, st1, hq, hr⟩
  rw [reports_unique cycleHitPass h hq] at hr
  exact hr (by decide)

/-! ## Loop roots and the memo stores (C17) -/

/-- C17, as stated, fails: the analysis of `directLoop` (a range statement at
90, not the position of any function declaration) from fresh memo stores
leaves a verdict keyed by 90 in `funcCache` that was not there before. -/
theorem C17_loop_root_gets_a_verdict :
    (loops directPass).map Node.pos = [90] ∧
    (allFuncDecls directPass).map Node.pos = [60] ∧
    (State.fresh [1]).funcCache.Exists 90 = false ∧
    ∃ st1, findQuery directPass 1 directLoop none (State.fresh [1]) = .ok st1 ∧
      st1.funcCache.Exists 90 = true := by
  refine ⟨by decide, by decide, rfl, ?_⟩
  have ha : active directPass (State.fresh [1]).sqlTypes directLoop
      = [.ident ⟨120, some 1, .other, some 40⟩] := rfl
  rw [findQuery_walk directPass 0 directLoop none (State.fresh [1]) rfl, ha,
    forEach_singleton, visitSt_hit _ _ _ _ _ _ (by rfl)]
  exact ⟨_, rfl, rfl⟩

theorem forEach_split {f : Node → State → Except Fault State} (l1 : List Node) (m : Node)
    (l2 : List Node) (st st1 : State) (h : forEach f (l1 ++ m :: l2) st = .ok st1) :
    ∃ s s1, forEach f l1 st = .ok s ∧ f m s = .ok s1 ∧ forEach f l2 s1 = .ok st1 := by
  rw [forEach_append] at h
  cases h1 : forEach f l1 st with
  | error e => rw [h1] at h; simp at h
  | ok s =>
    rw [h1] at h
    simp only [forEach] at h
    cases h2 : f m s with
    | error e => rw [h2] at h; simp at h
    | ok s1 =>
      rw [h2] at h
      exact ⟨s, s1, rfl, h2, h⟩

/-- What the steps of an analysis rooted at `loop` write to the memo stores:
the visited guard at positions of function declarations only, verdicts at
positions of function declarations and, when the walk of `loop` meets an
identifier of registered type, at the position of `loop`. -/
theorem memo_writes_closed (P : Pass) (loop : Node) :
    StepClosed P (fun r => r = loop ∨ r ∈ allFuncDecls P)
      (fun a b => b.sqlTypes = a.sqlTypes ∧
        (∀ k, b.searchCache k = a.searchCache k ∨ k ∈ (allFuncDecls P).map Node.pos) ∧
        (∀ k, b.funcCache k = a.funcCache k ∨ k ∈ (allFuncDecls P).map Node.pos ∨
          (k = loop.pos ∧ ∃ m, m ∈ walked loop ∧ isQueryIdent a.sqlTypes m = true))) where
  decls := fun _ h => Or.inr h
  refl := fun _ => ⟨rfl, fun _ => Or.inl rfl, fun _ => Or.inl rfl⟩
  trans := by
    rintro a b c ⟨hs1, hc1, hf1⟩ ⟨hs2, hc2, hf2⟩
    refine ⟨hs2.trans hs1, ?_, ?_⟩
    · intro k
      rcases hc2 k with h | h
      · rcases hc1 k with g | g
        · exact Or.inl (h.trans g)
        · exact Or.inr g
      · exact Or.inr h
    · intro k
      rcases hf2 k with h | h | h
      · rcases hf1 k with g | g
        · exact Or.inl (h.trans g)
        · exact Or.inr g
      · exact Or.inr (Or.inl h)
      · exact Or.inr (Or.inr (by rw [← hs1]; exact h))
  enter := fun _ _ _ _ => ⟨rfl, fun _ => Or.inl rfl, fun _ => Or.inl rfl⟩
  walk := fun _ _ _ _ => ⟨rfl, fun _ => Or.inl rfl, fun _ => Or.inl rfl⟩
  cached := fun _ _ _ _ _ => ⟨rfl, fun _ => Or.inl rfl, fun _ => Or.inl rfl⟩
  again := fun _ _ _ _ _ _ => ⟨rfl, fun _ => Or.inl rfl, fun _ => Or.inl rfl⟩
  start := by
    intro st decl hd _
    refine ⟨rfl, ?_, fun _ => Or.inl rfl⟩
    intro k
    by_cases hk : k = decl.pos
    · exact Or.inr (hk ▸ List.mem_map_of_mem _ hd)
    · left
      simp [Memo.set, hk]
  hit := by
    intro st root m p hroot hm hq
    refine ⟨rfl, fun _ => Or.inl rfl, ?_⟩
    intro k
    by_cases hk : k = root.pos
    · rcases hroot with h | h
      · subst h
        exact Or.inr (Or.inr ⟨hk, m, hm, hq⟩)
      · exact Or.inr (Or.inl (hk ▸ List.mem_map_of_mem _ h))
    · left
      simp [State.report, Memo.set, hk]

/-- A true verdict, once recorded, stays. -/
theorem verdict_stays_closed (P : Pass) :
    StepClosed P (fun _ => True)
      (fun a b => ∀ k, a.funcCache k = some true → b.funcCache k = some true) where
  decls := fun _ _ => trivial
  refl := fun _ _ h => h
  trans := fun _ _ _ h1 h2 k h => h2 k (h1 k h)
  enter := fun _ _ _ _ _ h => h
  walk := fun _ _ _ _ _ h => h
  cached := fun _ _ _ _ _ _ h => h
  start := fun _ _ _ _ _ h => h
  again := fun _ _ _ _ _ _ _ h => h
  hit := by
    intro st root m p _ _ _ k hk
    by_cases hkr : k = root.pos
    · simp [State.report, Memo.set, hkr]
    · simpa [State.report, Memo.set, hkr] using hk

theorem loop_pos_not_decl {P : Pass} (hnd : PosNodup P) {loop : Node}
    (hloop : loop ∈ loops P) : loop.pos ∉ (allFuncDecls P).map Node.pos := by
  unfold PosNodup at hnd
  rw [List.map_append] at hnd
  intro h
  exact (List.nodup_append.mp hnd).2.2 (List.mem_map_of_mem _ hloop) h

theorem walk_closed {P : Pass} {Rt : Node → Prop} {R : State → State → Prop}
    (hR : StepClosed P Rt R) (fuel : Nat) (root : Node) (parent : Option Node)
    (hroot : Rt root) (l : List Node) (hl : ∀ m, m ∈ l → m ∈ walked root) (st st1 : State)
    (h : forEach (visitSt P (findQuery P fuel) root parent) l st = .ok st1) : R st st1 :=
  forEach_closed hR.refl hR.trans _ l
    (fun m hm s s1 hs =>
      visitSt_closed hR _ (fun d q a b hd hq => findQuery_closed hR fuel d q a b hd hq)
        root parent hroot m (hl m hm) s s1 hs)
    st st1 h

/-- C17, amended: let the for/range statements and function declarations of
the package start at pairwise distinct positions. After `findQuery(loop, nil)`
on a loop of the package, from any starting state, `searchCache` holds at the
loop's position what it held before, and is changed only at positions of
function declarations; `funcCache` is changed only at the loop's position and
at positions of function declarations; at the loop's position it is unchanged
when the loop's walk meets no identifier of registered type, and holds a true
verdict when the walk meets one and no entry was there before. -/
theorem C17_loop_root_memo_entries (P : Pass) (loop : Node) (fuel : Nat) (st st1 : State)
    (hnd : PosNodup P) (hloop : loop ∈ loops P)
    (hq : findQuery P fuel loop none st = .ok st1) :
    st1.searchCache loop.pos = st.searchCache loop.pos ∧
    (∀ k, st1.searchCache k ≠ st.searchCache k → k ∈ (allFuncDecls P).map Node.pos) ∧
    (∀ k, st1.funcCache k ≠ st.funcCache k →
      k = loop.pos ∨ k ∈ (allFuncDecls P).map Node.pos) ∧
    ((∀ m, m ∈ walked loop → isQueryIdent st.sqlTypes m = false) →
      st1.funcCache loop.pos = st.funcCache loop.pos) ∧
    (st.funcCache.Exists loop.pos = false →
      (∃ m, m ∈ walked loop ∧ isQueryIdent st.sqlTypes m = true) →
      st1.funcCache loop.pos = some true) := by
  obtain ⟨_, hsc, hfc⟩ :=
    findQuery_closed_root (memo_writes_closed P loop) fuel loop st st1 (Or.inl rfl) hq
  have hnot := loop_pos_not_decl hnd hloop
  refine ⟨?_, ?_, ?_, ?_, ?_⟩
  · rcases hsc loop.pos with h | h
    · exact h
    · exact absurd h hnot
  · intro k hne
    rcases hsc k with h | h
    · exact absurd h hne
    · exact h
  · intro k hne
    rcases hfc k with h | h | h
    · exact absurd h hne
    · exact Or.inr h
    · exact Or.inl h.1
  · intro hno
    rcases hfc loop.pos with h | h | ⟨_, m, hm, hm1⟩
    · exact h
    · exact absurd h hnot
    · rw [hno m hm] at hm1
      exact absurd hm1 (by decide)
  · intro he ⟨m, hm, hmq⟩
    cases fuel with
    | zero => simp [findQuery_zero] at hq
    | succ fuel =>
      rw [findQuery_succ] at hq
      simp only [he, Bool.false_eq_true, if_false] at hq
      obtain ⟨l1, l2, hw⟩ := List.append_of_mem hm
      have hsub1 : ∀ x, x ∈ l1 → x ∈ walked loop := fun x hx => by
        rw [hw]; exact List.mem_append_left _ hx
      have hsub2 : ∀ x, x ∈ l2 → x ∈ walked loop := fun x hx => by
        rw [hw]; exact List.mem_append_right _ (List.mem_cons_of_mem _ hx)
      rw [hw] at hq
      obtain ⟨s, s1, h1, h2, h3⟩ := forEach_split l1 m l2 _ st1 hq
      have hty0 := walk_closed (sqlTypes_closed P) fuel loop none trivial l1 hsub1 _ s h1
      have hty : s.sqlTypes = st.sqlTypes := hty0
      rw [visitSt_hit P _ loop none m s (by rw [hty]; exact hmq)] at h2
      have hs1 : s1.funcCache loop.pos = some true := by
        rw [← Except.ok.inj h2]
        simp [State.report, Memo.set]
      exact walk_closed (verdict_stays_closed P) fuel loop none trivial l2 hsub2 s1 st1 h3
        loop.pos hs1

/-- C17, amended, at `directLoop`: after its analysis from the fresh state
`searchCache` holds nothing at 90 and `funcCache` holds a true verdict there. -/
theorem C17_loop_root_memo_witness :
    ∃ st1, findQuery directPass 1 directLoop none (State.fresh [1]) = .ok st1 ∧
      st1.searchCache 90 = none ∧ st1.funcCache 90 = some true := by
  obtain ⟨st1, hst, _⟩ := reportsOf_eq_some
    (by decide : reportsOf (findQuery directPass 1 directLoop none (State.fresh [1]))
      = some [120])
  have hl : directLoop ∈ loops directPass := by
    rw [show loops directPass = [directLoop] from rfl]; simp
  have ha : active directPass (State.fresh [1]).sqlTypes directLoop
      = [.ident ⟨120, some 1, .other, some 40⟩] := rfl
  have hm : Node.ident ⟨120, some 1, .other, some 40⟩ ∈ walked directLoop :=
    (List.mem_filter.mp (by rw [ha]; exact List.mem_singleton_self _ :
      Node.ident ⟨120, some 1, .other, some 40⟩ ∈
        active directPass (State.fresh [1]).sqlTypes directLoop)).1
  have hc := C17_loop_root_memo_entries directPass directLoop 1 (State.fresh [1]) st1
    (by unfold PosNodup; decide) hl hst
  exact ⟨st1, hst, hc.1, hc.2.2.2.2 rfl ⟨_, hm, rfl⟩⟩


/-! ## The header of a loop is walked too (C3) -/

/-- C3, as stated, fails: in `headerPass` the body of the loop holds no
identifier of registered type and calls only `note`, declared in the same file,
whose declaration holds none either; the state is the fresh one. But the
condition of the loop, `i < db.Stats().InUse`, is walked as well, and
`findQuery(loop, nil)` reports at `db` (106). -/
theorem C3_loop_header_is_walked :
    (loops headerPass).map Node.pos = [90] ∧
    quietRoot headerPass [1] headerBody = true ∧
    (calleesOf headerPass headerBody).map Node.pos = [250] ∧
    declAt headerPass 250 = some (funcDecl 250 []) ∧
    quietRoot headerPass [1] (funcDecl 250 []) = true ∧
    (calleesOf headerPass (funcDecl 250 [])).map Node.pos = [] ∧
    reportsOf (findQuery headerPass 2 headerLoop none (State.fresh [1])) = some [106] ∧
    ¬ ∃ fuel st1, findQuery headerPass fuel headerLoop none (State.fresh [1]) = .ok st1 ∧
        st1.reports = [] := by
  have h : reportsOf (findQuery headerPass 2 headerLoop none (State.fresh [1]))
      = some [106] := by decide
  refine ⟨by decide, by decide, by decide, rfl, by decide, by decide, h, ?_⟩
  rintro ⟨fuel, st1, hq, hr⟩
  rw [reports_unique headerPass h hq] at hr
  exact absurd hr (by decide)

/-! ## A run that never reaches its second loop (C9) -/

/-- In `rtPass`, with no verdict stored, neither `pong` nor `ping` can be
analysed with any amount of fuel: each walk re-enters the other through
`anotherFileSearch`. -/
theorem rt_diverge :
    ∀ (fuel : Nat) (parent : Option Node) (st : State),
      st.funcCache = Memo.empty → st.sqlTypes = [1] →
      findQuery rtPass fuel rtPong parent st = .error .outOfFuel ∧
      findQuery rtPass fuel rtPing parent st = .error .outOfFuel := by
  intro fuel
  induction fuel with
  | zero => intro parent st _ _; exact ⟨rfl, rfl⟩
  | succ n ih =>
    intro parent st hfc hty
    have hpong : active rtPass [1] rtPong
        = [.call (.ident ⟨430, some 20, .nil, some 65⟩)
            [.ident ⟨436, some 11, .other, some 97⟩]] := rfl
    have hping : active rtPass [1] rtPing
        = [.call (.ident ⟨120, some 20, .nil, some 405⟩)
            [.ident ⟨126, some 11, .other, some 97⟩]] := rfl
    constructor
    · rw [findQuery_walk rtPass n rtPong parent st (by rw [hfc]; rfl), hty, hpong,
        forEach_singleton]
      unfold visitSt
      rw [visit_call_nil _ _ _ _ _ _ _ rfl,
        anotherFileSearch_some rtPass _ _ _ _ 65 ⟨1, 300, [rtPing, rtList]⟩ rfl rfl]
      have hds : funcDeclsOf ⟨1, 300, [rtPing, rtList]⟩ = [rtPing, rtList] := rfl
      rw [hds]
      simp only [forEach]
      rw [(ih _ _ (by exact hfc) (by rfl)).2]
    · rw [findQuery_walk rtPass n rtPing parent st (by rw [hfc]; rfl), hty, hping,
        forEach_singleton]
      unfold visitSt
      rw [visit_call_nil _ _ _ _ _ _ _ rfl,
        anotherFileSearch_some rtPass _ _ _ _ 405 ⟨301, 500, [rtPong]⟩ rfl rfl]
      have hds : funcDeclsOf ⟨301, 500, [rtPong]⟩ = [rtPong] := rfl
      rw [hds, forEach_singleton, (ih _ _ (by exact hfc) (by rfl)).1]

/-- C9: the code departs from it. The package `rtPass` imports `database/sql`,
so that the registry is not empty, and holds two for/range statements, at 90
and at 190. The analysis of the first never returns, however much fuel it is
given (its call of `pong` resolves into another file, whose `pong` calls
`ping` back, and the path through `anotherFileSearch` has no visited guard);
so `run` never returns and the statement at 190, whose analysis alone would
report at 220, is never handed to `findQuery`. -/
theorem C9_second_loop_is_never_analysed :
    (prepareTypes rtPass (State.fresh (State.fresh []).sqlTypes)).sqlTypes = [1] ∧
    loops rtPass = [rtLoop, rtListLoop] ∧
    (loops rtPass).map Node.pos = [90, 190] ∧
    (∀ fuel, findQuery rtPass fuel rtLoop none (State.fresh [1]) = .error .outOfFuel) ∧
    (∀ fuel, run rtPass fuel (State.fresh []) = .error .outOfFuel) ∧
    reportsOf (findQuery rtPass 1 rtListLoop none (State.fresh [1])) = some [220] := by
  have hloop : ∀ fuel, findQuery rtPass fuel rtLoop none (State.fresh [1])
      = .error .outOfFuel := by
    intro fuel
    cases fuel with
    | zero => rfl
    | succ n =>
      have hact : active rtPass [1] rtLoop
          = [.call (.ident ⟨120, some 20, .nil, some 405⟩)
              [.ident ⟨126, some 11, .other, some 97⟩]] := rfl
      rw [findQuery_walk rtPass n rtLoop none (State.fresh [1]) rfl]
      have hty : (State.fresh [1]).sqlTypes = [1] := rfl
      rw [hty, hact, forEach_singleton]
      unfold visitSt
      rw [visit_call_nil _ _ _ _ _ _ _ rfl,
        anotherFileSearch_some rtPass _ _ _ _ 405 ⟨301, 500, [rtPong]⟩ rfl rfl]
      have hds : funcDeclsOf ⟨301, 500, [rtPong]⟩ = [rtPong] := rfl
      rw [hds, forEach_singleton, (rt_diverge n _ _ (by rfl) (by rfl)).1]
  refine ⟨rfl, rfl, by decide, hloop, ?_, by decide⟩
  intro fuel
  have hl : loops rtPass = [rtLoop, rtListLoop] := rfl
  have hp : prepareTypes rtPass (State.fresh (State.fresh []).sqlTypes) = State.fresh [1] := rfl
  unfold run
  rw [hp, hl]
  simp only [forEach, hloop]
  rfl

/-! ## Cross-file hit, one report for each declaration that has one (C6) -/

/-- Walks are only ever added. -/
theorem walks_closed (P : Pass) :
    StepClosed P (fun _ => True) (fun a b => ∀ x, x ∈ a.walks → x ∈ b.walks) where
  decls := fun _ _ => trivial
  refl := fun _ _ h => h
  trans := fun _ _ _ h1 h2 x hx => h2 x (h1 x hx)
  enter := fun _ _ _ _ _ h => h
  walk := fun _ _ _ _ _ h => List.mem_append_left _ h
  cached := fun _ _ _ _ _ _ h => h
  hit := fun _ _ _ _ _ _ _ _ h => h
  start := fun _ _ _ _ _ h => h
  again := fun _ _ _ _ _ _ _ h => h

theorem calleeOf_callsInFile {P : Pass} {d m e : Node} (hm : m ∈ walked d)
    (h : calleeOf P m = some e) : CallsInFile P d e := by
  cases m with
  | ident id => simp [calleeOf] at h
  | node k p cs => simp [calleeOf] at h
  | call fn args =>
    cases fn with
    | call f2 a2 => simp [calleeOf] at h
    | node k p cs => simp [calleeOf] at h
    | ident funcExpr =>
      cases hobj : funcExpr.obj with
      | other => simp [calleeOf, hobj] at h
      | nil => simp [calleeOf, hobj] at h
      | funcDecl k =>
        simp only [calleeOf, hobj] at h
        exact ⟨funcExpr, args, k, hm, hobj, h⟩

theorem transGen_mem {P : Pass} {a e : Node} (h : Relation.TransGen (CallsInFile P) a e) :
    e ∈ allFuncDecls P := by
  cases h with
  | single h1 =>
    obtain ⟨_, _, _, _, _, hd⟩ := h1
    exact (declAt_mem hd).1
  | tail _ h1 =>
    obtain ⟨_, _, _, _, _, hd⟩ := h1
    exact (declAt_mem hd).1

theorem funcDeclsOf_nodup {P : Pass} {file : File} (hfile : file ∈ P.files)
    (hnd : ((allFuncDecls P).map Node.pos).Nodup) :
    ((funcDeclsOf file).map Node.pos).Nodup := by
  obtain ⟨l1, l2, hl⟩ := List.append_of_mem hfile
  unfold allFuncDecls at hnd
  rw [hl, List.flatMap_append, List.flatMap_cons, List.map_append, List.map_append] at hnd
  exact (List.Nodup.of_append_left (List.Nodup.of_append_right hnd))

theorem filter_length_le_one {l : List Node} {p : Node → Bool}
    (h : (l.filter p).length ≤ 1) : (l.filter p).length = if l.any p = true then 1 else 0 := by
  by_cases ha : l.any p = true
  · rw [if_pos ha]
    obtain ⟨m, hm, hp⟩ := List.any_eq_true.mp ha
    have hpos : 0 < (l.filter p).length :=
      List.length_pos_of_mem (List.mem_filter.mpr ⟨hm, hp⟩)
    omega
  · rw [if_neg ha]
    have : l.filter p = [] := by
      rw [List.filter_eq_nil_iff]
      intro m hm hp
      exact ha (List.any_eq_true.mpr ⟨m, hm, hp⟩)
    rw [this]; rfl

/-- A step of the visitor at a node that is no identifier of registered type,
whose call, if it has no declaration object, is a dead end, and whose callee,
if it is a declaration of the file, lies in a quiet set: it returns and is
silent. -/
theorem quiet_node {P : Pass} {S : List Ty} {C : Node → Prop} (hQ : Quiet P S C)
    (fuel : Nat) (root : Node) (parent : Option Node) (m : Node) (st : State)
    (hS : st.sqlTypes = S) (hq0 : isQueryIdent S m = false)
    (hdead : prunes m = true → isLiveCall P m = false)
    (hcallee : ∀ e, calleeOf P m = some e → C e)
    (hfc : ∀ d, C d → st.funcCache.get d.pos = false) (hp : pending P st < fuel + 1) :
    ∃ st1, visitSt P (findQuery P fuel) root parent m st = .ok st1 ∧ Silent st st1 := by
  have hq : isQueryIdent st.sqlTypes m = false := by rw [hS]; exact hq0
  have inert : isLiveCall P m = false →
      ∃ st1, visitSt P (findQuery P fuel) root parent m st = .ok st1 ∧ Silent st st1 :=
    fun hl => ⟨st, visitSt_inert P _ root parent m st hq hl, Silent.refl st⟩
  cases m with
  | ident id => exact inert rfl
  | node k p cs => exact inert rfl
  | call fn args =>
    cases fn with
    | call f2 a2 => exact inert rfl
    | node k p cs => exact inert rfl
    | ident funcExpr =>
      cases hobj : funcExpr.obj with
      | other => exact inert (by simp [isLiveCall, hobj])
      | nil => exact inert (hdead (by simp [prunes, hobj]))
      | funcDecl k =>
        cases hd : declAt P k with
        | none => exact inert (by simp [isLiveCall, hobj, hd])
        | some e =>
          have hCe : C e := hcallee e (by simp [calleeOf, hobj, hd])
          have hmem := (declAt_mem hd).1
          unfold visitSt
          cases hs : st.searchCache.get e.pos with
          | true =>
            rw [visit_call_again P _ root parent st funcExpr args k e hobj hd hs]
            simp only [hfc e hCe, Bool.false_eq_true, if_false]
            exact ⟨st, rfl, Silent.refl st⟩
          | false =>
            rw [visit_call_first P _ root parent st funcExpr args k e hobj hd hs]
            have hlt := pending_start P st e hmem hs
            obtain ⟨s1, h1, hsil⟩ := quiet_findQuery hQ fuel e
              (some (.call (.ident funcExpr) args))
              { st with searchCache := st.searchCache.set e.pos true } hCe hS hfc (by omega)
            rw [h1]
            refine ⟨s1, rfl, hsil.1, hsil.2.1, hsil.2.2.1, ?_⟩
            intro x hx
            apply hsil.2.2.2
            by_cases hxe : x = e.pos
            · subst hxe; exact Memo.get_set_self _ _ _
            · simpa [Memo.get_set_ne _ _ hxe] using hx

/-- The walk of a declaration entered with a report target `c`, all of whose
callees by simple name lie in a quiet set: one report at `c` for each
identifier of registered type it meets, and no verdict but its own. -/
theorem cross_walk {P : Pass} {S : List Ty} {C : Node → Prop} (hQ : Quiet P S C)
    (fuel : Nat) (hfuel : (allFuncDecls P).length ≤ fuel) (d c : Node)
    (hnode : ∀ m, m ∈ walked d → isQueryIdent S m = false →
      (prunes m = true → isLiveCall P m = false) ∧ ∀ e, calleeOf P m = some e → C e)
    (hpos : ∀ m, m ∈ walked d → isQueryIdent S m = true → ∀ e, C e → e.pos ≠ d.pos) :
    ∀ (l : List Node), (∀ m, m ∈ l → m ∈ walked d) → ∀ (st : State), st.sqlTypes = S →
      (∀ e, C e → st.funcCache.get e.pos = false) →
      ∃ st1, forEach (visitSt P (findQuery P fuel) d (some c)) l st = .ok st1 ∧
        st1.reports = st.reports ++ List.replicate (l.filter (isQueryIdent S)).length c.pos ∧
        st1.sqlTypes = S ∧
        (∀ k, k ≠ d.pos → st1.funcCache k = st.funcCache k) ∧
        (∀ e, C e → st1.funcCache.get e.pos = false) := by
  intro l
  induction l with
  | nil => intro _ st hS hfc; exact ⟨st, rfl, by simp, hS, fun _ _ => rfl, hfc⟩
  | cons m ms ih =>
    intro hl st hS hfc
    have hm := hl m (List.mem_cons_self _ _)
    have hms : ∀ x, x ∈ ms → x ∈ walked d := fun x hx => hl x (List.mem_cons_of_mem _ hx)
    by_cases hq : isQueryIdent S m = true
    · obtain ⟨s1, h1, hr, hs, hf, hc⟩ := ih hms
        { st.report ((some c).getD m).pos with funcCache := st.funcCache.set d.pos true }
        hS
        (fun e he => by
          show (st.funcCache.set d.pos true).get e.pos = false
          rw [Memo.get_set_ne _ _ (hpos m hm hq e he)]
          exact hfc e he)
      refine ⟨s1, ?_, ?_, hs, ?_, hc⟩
      · simp only [forEach]
        rw [visitSt_hit P _ d (some c) m st (by rw [hS]; exact hq)]
        exact h1
      · rw [hr, List.filter_cons_of_pos hq]
        simp [State.report, List.replicate_succ]
      · intro k hk
        rw [hf k hk]
        simp [Memo.set, hk]
    · have hq0 : isQueryIdent S m = false := by simpa using hq
      obtain ⟨s1, h1, hsil⟩ := quiet_node hQ fuel d (some c) m st hS hq0
        (hnode m hm hq0).1 (hnode m hm hq0).2 hfc
        (Nat.lt_succ_of_le ((pending_le P st).trans hfuel))
      obtain ⟨s2, h2, hr, hs, hf, hc⟩ := ih hms s1 (hsil.2.2.1.trans hS)
        (fun e he => by rw [hsil.2.1]; exact hfc e he)
      refine ⟨s2, ?_, ?_, hs, ?_, hc⟩
      · simp only [forEach, h1]
        exact h2
      · rw [hr, hsil.1, List.filter_cons_of_neg hq]
      · intro k hk
        rw [hf k hk, hsil.2.1]

/-- The same for the whole call of `findQuery` on a declaration without
verdict; the declaration is walked. -/
theorem cross_decl {P : Pass} {S : List Ty} {C : Node → Prop} (hQ : Quiet P S C)
    (fuel : Nat) (hfuel : (allFuncDecls P).length ≤ fuel) (d c : Node)
    (hnode : ∀ m, m ∈ walked d → isQueryIdent S m = false →
      (prunes m = true → isLiveCall P m = false) ∧ ∀ e, calleeOf P m = some e → C e)
    (hpos : ∀ m, m ∈ walked d → isQueryIdent S m = true → ∀ e, C e → e.pos ≠ d.pos)
    (st : State) (hS : st.sqlTypes = S) (hfc : ∀ e, C e → st.funcCache.get e.pos = false)
    (he : st.funcCache.Exists d.pos = false) :
    ∃ st1, findQuery P (fuel + 1) d (some c) st = .ok st1 ∧
      st1.reports = st.reports ++
        List.replicate ((walked d).filter (isQueryIdent S)).length c.pos ∧
      st1.sqlTypes = S ∧
      (∀ k, k ≠ d.pos → st1.funcCache k = st.funcCache k) ∧
      (∀ e, C e → st1.funcCache.get e.pos = false) ∧
      d.pos ∈ st1.walks ∧ ∀ x, x ∈ st.walks → x ∈ st1.walks := by
  obtain ⟨s1, h1, hr, hs, hf, hc⟩ := cross_walk hQ fuel hfuel d c hnode hpos (walked d)
    (fun _ h => h)
    { st with calls := st.calls ++ [(d.pos, (some c).map Node.pos)],
              walks := st.walks ++ [d.pos] }
    hS hfc
  have hw := walk_closed (walks_closed P) fuel d (some c) trivial (walked d) (fun _ h => h)
    _ s1 h1
  refine ⟨s1, ?_, hr, hs, hf, hc, hw _ (by simp), fun x hx => hw x (by simp [hx])⟩
  rw [findQuery_succ]
  simp only [he, Bool.false_eq_true, if_false]
  exact h1

/-- The pass of `anotherFileSearch` over the declarations of a file. -/
theorem cross_fold {P : Pass} {S : List Ty} {C : Node → Prop} (hQ : Quiet P S C)
    (fuel : Nat) (hfuel : (allFuncDecls P).length ≤ fuel) (c : Node) :
    ∀ (ds : List Node), (ds.map Node.pos).Nodup →
      (∀ d, d ∈ ds →
        (∀ m, m ∈ walked d → isQueryIdent S m = false →
          (prunes m = true → isLiveCall P m = false) ∧ ∀ e, calleeOf P m = some e → C e) ∧
        (∀ m, m ∈ walked d → isQueryIdent S m = true → ∀ e, C e → e.pos ≠ d.pos) ∧
        ((walked d).filter (isQueryIdent S)).length ≤ 1) →
      ∀ (st : State), st.sqlTypes = S → (∀ e, C e → st.funcCache.get e.pos = false) →
        (∀ d, d ∈ ds → st.funcCache.Exists d.pos = false) →
        ∃ st1, forEach (fun n s => findQuery P (fuel + 1) n (some c) s) ds st = .ok st1 ∧
          st1.reports = st.reports ++
            List.replicate (ds.countP (fun d => (walked d).any (isQueryIdent S))) c.pos ∧
          (∀ d, d ∈ ds → d.pos ∈ st1.walks) ∧ ∀ x, x ∈ st.walks → x ∈ st1.walks := by
  intro ds
  induction ds with
  | nil => intro _ _ st _ _ _; exact ⟨st, rfl, by simp, by simp, fun _ h => h⟩
  | cons d ds ih =>
    intro hnd hds st hS hfc he
    simp only [List.map_cons, List.nodup_cons] at hnd
    obtain ⟨hnode, hpos, hone⟩ := hds d (List.mem_cons_self _ _)
    obtain ⟨s1, h1, hr1, hs1, hf1, hc1, hw1, hm1⟩ := cross_decl hQ fuel hfuel d c hnode hpos
      st hS hfc (he d (List.mem_cons_self _ _))
    obtain ⟨s2, h2, hr2, hw2, hm2⟩ := ih hnd.2
      (fun x hx => hds x (List.mem_cons_of_mem _ hx)) s1 hs1 hc1
      (fun x hx => by
        have hne : x.pos ≠ d.pos := fun hxe => hnd.1 (hxe ▸ List.mem_map_of_mem _ hx)
        have := he x (List.mem_cons_of_mem _ hx)
        unfold Memo.Exists at this ⊢
        rw [hf1 _ hne]
        exact this)
    refine ⟨s2, ?_, ?_, ?_, fun x hx => hm2 x (hm1 x hx)⟩
    · simp only [forEach, h1]
      exact h2
    · rw [hr2, hr1, filter_length_le_one hone, List.countP_cons, List.append_assoc,
        ← List.replicate_add, Nat.add_comm]
    · intro x hx
      rcases List.mem_cons.mp hx with rfl | hx
      · exact hm2 _ hw1
      · exact hw2 x hx

/-- C6, amended: let the function declarations of the package sit at pairwise
distinct positions, and let the only active node the walk of the loop meets be
one call by simple name whose callee has no declaration object in the current
file and whose type-info object lies in a file of the pass. Let each function
declaration of that file meet at most one identifier of registered type and no
live call without declaration object, and let every function they call by
simple name, directly or not, touch no registered type. Then
`findQuery(loop, nil)` started with an empty verdict memo returns, having
walked every function declaration of that file and emitted, at the call
expression, exactly one report for each function declaration of that file
whose walk meets an identifier of registered type, and nothing else. -/
theorem C6_cross_file_hit_per_declaration (P : Pass) (loop : Node) (funcExpr : Ident)
    (args : List Node) (p : Pos) (file : File) (st : State)
    (hnd : ((allFuncDecls P).map Node.pos).Nodup)
    (hfc : st.funcCache = Memo.empty)
    (hobj : funcExpr.obj = ObjRef.nil) (ho : funcExpr.objectOf = some p)
    (hf : fileOf P p = some file)
    (hloop : active P st.sqlTypes loop = [.call (.ident funcExpr) args])
    (hone : ∀ d, d ∈ funcDeclsOf file →
      ((walked d).filter (isQueryIdent st.sqlTypes)).length ≤ 1)
    (hdead : ∀ d, d ∈ funcDeclsOf file → ∀ m, m ∈ walked d → prunes m = true →
      isLiveCall P m = false)
    (hquiet : ∀ d, d ∈ funcDeclsOf file → ∀ e, Relation.TransGen (CallsInFile P) d e →
      quietRoot P st.sqlTypes e = true) :
    ∃ st1, findQuery P ((allFuncDecls P).length + 2) loop none st = .ok st1 ∧
      st1.reports = st.reports ++
        List.replicate
          ((funcDeclsOf file).countP (fun d => (walked d).any (isQueryIdent st.sqlTypes)))
          (Node.call (.ident funcExpr) args).pos ∧
      ∀ d, d ∈ funcDeclsOf file → d.pos ∈ st1.walks := by
  have hfile := fileOf_mem hf
  have hQ : Quiet P st.sqlTypes
      (fun e => ∃ d, d ∈ funcDeclsOf file ∧ Relation.TransGen (CallsInFile P) d e) :=
    { noHit := fun e ⟨d, hd, hde⟩ m hm => (quietRoot_spec (hquiet d hd e hde) m hm).1
      deadEnd := fun e ⟨d, hd, hde⟩ m hm => (quietRoot_spec (hquiet d hd e hde) m hm).2
      closed := fun e ⟨d, hd, hde⟩ e2 h2 => ⟨d, hd, Relation.TransGen.tail hde h2⟩ }
  have he : st.funcCache.Exists loop.pos = false := by rw [hfc]; rfl
  have hN : (allFuncDecls P).length + 2 = ((allFuncDecls P).length + 1) + 1 := rfl
  rw [hN, findQuery_walk P _ loop none st he, hloop, forEach_singleton]
  unfold visitSt
  rw [visit_call_nil P _ loop none _ funcExpr args hobj,
    anotherFileSearch_some P _ _ funcExpr _ p file ho hf]
  obtain ⟨s1, h1, hr1, hw1, _⟩ := cross_fold hQ (allFuncDecls P).length (Nat.le_refl _)
    (.call (.ident funcExpr) args) (funcDeclsOf file) (funcDeclsOf_nodup hfile hnd)
    (fun d hd =>
      ⟨fun m hm _ => ⟨hdead d hd m hm,
          fun e he => ⟨d, hd, Relation.TransGen.single (calleeOf_callsInFile hm he)⟩⟩,
        fun m hm hq e ⟨d0, hd0, hde⟩ hpe => by
          have hed : e = d := List.inj_on_of_nodup_map hnd (transGen_mem hde)
            (funcDeclsOf_subset hfile hd) hpe
          subst hed
          rw [(quietRoot_spec (hquiet d0 hd0 e hde) m hm).1] at hq
          exact absurd hq (by decide),
        hone d hd⟩)
    { st with calls := st.calls ++ [(loop.pos, Option.map Node.pos none)],
              walks := st.walks ++ [loop.pos] }
    rfl
    (fun e _ => by simp only [hfc]; rfl)
    (fun d _ => by simp only [hfc]; rfl)
  refine ⟨s1, ?_, hr1, hw1⟩
  rw [h1]

theorem tidyPass_reach (d e : Node)
    (hd : d = funcDecl 300 [queryStmt 330, callStmt 360 500] ∨ d = funcDecl 500 [])
    (h : Relation.TransGen (CallsInFile tidyPass) d e) : e = funcDecl 500 [] := by
  have h1 : calleesOf tidyPass (funcDecl 300 [queryStmt 330, callStmt 360 500])
      = [funcDecl 500 []] := rfl
  have h2 : calleesOf tidyPass (funcDecl 500 []) = [] := rfl
  induction h with
  | single hc =>
    have hmem := callsInFile_mem hc
    rcases hd with rfl | rfl
    · rw [h1] at hmem; exact List.mem_singleton.mp hmem
    · rw [h2] at hmem; exact absurd hmem (List.not_mem_nil _)
  | tail _ hc ih =>
    have hmem := callsInFile_mem hc
    rw [ih, h2] at hmem
    exact absurd hmem (List.not_mem_nil _)

/-- C6, amended, at `tidyPass`, where the defining file holds `fetch`, which
uses `db` once and calls `tidy`, and `tidy`, which does nothing: both
declarations are walked and there is exactly one report, at the call (120). -/
theorem C6_cross_file_hit_witness :
    (funcDeclsOf tidyFile).map Node.pos = [300, 500] ∧
    ∃ st1, findQuery tidyPass ((allFuncDecls tidyPass).length + 2) purgeLoop none
        (State.fresh [1]) = .ok st1 ∧
      st1.reports = [120] ∧ 300 ∈ st1.walks ∧ 500 ∈ st1.walks := by
  have hds : funcDeclsOf tidyFile
      = [funcDecl 300 [queryStmt 330, callStmt 360 500], funcDecl 500 []] := rfl
  have hmem : ∀ d, d ∈ funcDeclsOf tidyFile →
      d = funcDecl 300 [queryStmt 330, callStmt 360 500] ∨ d = funcDecl 500 [] := by
    intro d hd
    rw [hds] at hd
    simpa using hd
  refine ⟨by decide, ?_⟩
  obtain ⟨st1, h, hr, hw⟩ := C6_cross_file_hit_per_declaration tidyPass purgeLoop
    ⟨120, some 20, .nil, some 305⟩ [.ident ⟨126, some 11, .other, some 97⟩] 305
    tidyFile (State.fresh [1]) (by decide) rfl rfl rfl rfl rfl
    (by
      intro d hd
      rcases hmem d hd with rfl | rfl <;> decide)
    (by
      intro d hd m hm hp
      have hall : ∀ x, x ∈ funcDeclsOf tidyFile →
          (walked x).all (fun m => !prunes m || !isLiveCall tidyPass m) = true := by
        intro x hx
        rcases hmem x hx with rfl | rfl <;> decide
      have := List.all_eq_true.mp (hall d hd) m hm
      rw [hp] at this
      simpa using this)
    (by
      intro d hd e hde
      rw [tidyPass_reach d e (hmem d hd) hde]
      decide)
  refine ⟨st1, h, ?_,
    hw (funcDecl 300 [queryStmt 330, callStmt 360 500]) (by rw [hds]; simp),
    hw (funcDecl 500 []) (by rw [hds]; simp)⟩
  rw [hr]
  rfl

end GoOne
